import Mathlib

/-!
# Verification of the blueis list-command core

A shallow embedding of the blueis server's command layer
(`src/commands.rs`) and Monitor bus (`src/monitor.rs`), together with
proofs about the list-command semantics.

Modelling conventions:
* Keys and values are opaque byte strings, modelled as `List Nat`.
* The `list_items` table is a list of rows in insertion order together
  with the next auto-increment id (`id integer primary key autoincrement`).
* SQL `ORDER BY position` is insertion sort by the `position` column.
* SQL aggregate `MIN`/`MAX` over an empty set yields NULL, modelled as
  `none`.  `find_position_boundaries` in the source extracts those two
  aggregate columns into `(i64, i64)` via `rusqlite::Row::get`, which
  fails on a NULL column (for every rusqlite release exposing the API
  used by the source, `Row::get` panics when the column value is NULL
  and the requested type is `i64`).  That panic is modelled by the
  `panic` constructors below.
* Machine integers (`i64` positions, indexes, counts) are modelled as
  `Int`; the program never gets near `i64` overflow on these paths and
  the source does no wrapping arithmetic.
-/

namespace Blueis

/-- Opaque byte string (Rust `&[u8]` / `Vec<u8>`). -/
abbrev Bytes := List Nat

/-- One row of the `list_items` table:
`(id integer primary key autoincrement, key, value, position)`. -/
structure Row where
  id : Int
  key : Bytes
  value : Bytes
  position : Int
deriving Repr, DecidableEq

/-- The `list_items` table: rows in insertion order, plus the next
auto-increment id (SQLite assigns `1` to the first inserted row). -/
structure Store where
  rows : List Row
  nextId : Int
deriving Repr, DecidableEq

/-- The initial, empty database. -/
def Store.empty : Store := { rows := [], nextId := 1 }

/-- `enum Direction { Left, Right }` from `commands.rs`. -/
inductive Direction
  | Left
  | Right
deriving Repr, DecidableEq

/-- RESP values (the `resp::Value` constructors used by `commands.rs`).
`Str` is the source's `Value::String` (simple string) and `Arr` its
`Value::Array`. -/
inductive Value
  | Str : String → Value
  | Error : String → Value
  | Integer : Int → Value
  | BufBulk : Bytes → Value
  | Null : Value
  | NullArray : Value
  | Arr : List Value → Value

/-- `enum Action` from `commands.rs`. -/
inductive Action
  | Continue
  | HangUp
  | StartMonitor
deriving Repr, DecidableEq

/-- Result of one command handler (`CommandResult = Result<Value, String>`
in the source), together with the updated store.  `panic` models a Rust
panic (an `unwrap`/`Row::get` failure); `blocks` marks the entry into the
blocking wait loop of BLPOP/BRPOP, whose real-time behaviour is outside
this embedding. -/
inductive HandlerResult
  | ok : Value → Store → HandlerResult
  | err : String → Store → HandlerResult
  | panic : HandlerResult
  | blocks : HandlerResult

/-- Result of `Command::execute`: the RESP reply, the session action and
the updated store, or a panic / blocking entry. -/
inductive ExecOutcome
  | result : Value → Action → Store → ExecOutcome
  | panic : ExecOutcome
  | blocks : ExecOutcome

/-! ## SQL-level primitives over the `list_items` table -/

/-- `... FROM list_items WHERE key = ?1` (rows of one key, in table
order). -/
def keyRows (s : Store) (k : Bytes) : List Row :=
  s.rows.filter (fun r => decide (r.key = k))

/-- `SELECT COUNT(*) FROM list_items WHERE key = ?1`
(`Command::count_list_items`, returning `i64`). -/
def count_list_items (s : Store) (k : Bytes) : Int :=
  (keyRows s k).length

/-- SQL aggregate `MIN` over a column: NULL (`none`) on the empty set. -/
def listMin : List Int → Option Int
  | [] => none
  | x :: xs =>
    some (match listMin xs with
          | none => x
          | some m => min x m)

/-- SQL aggregate `MAX` over a column: NULL (`none`) on the empty set. -/
def listMax : List Int → Option Int
  | [] => none
  | x :: xs =>
    some (match listMax xs with
          | none => x
          | some m => max x m)

/-- The `position` column of one key, in table order. -/
def positionsOf (s : Store) (k : Bytes) : List Int :=
  (keyRows s k).map (·.position)

/-- `SELECT MIN(position) FROM list_items WHERE key = ?1`. -/
def minPosition (s : Store) (k : Bytes) : Option Int :=
  listMin (positionsOf s k)

/-- `SELECT MAX(position) FROM list_items WHERE key = ?1`. -/
def maxPosition (s : Store) (k : Bytes) : Option Int :=
  listMax (positionsOf s k)

/-- `Command::find_position_boundaries`: `SELECT MIN(position),
MAX(position) FROM list_items WHERE key = ?1`, extracted through
`row.get` into `(i64, i64)`.  The aggregate query always yields exactly
one row; when the key has no rows both aggregates are NULL and the
`i64` extraction fails (Rust panic), modelled here by `none`. -/
def find_position_boundaries (s : Store) (k : Bytes) : Option (Int × Int) :=
  match minPosition s k, maxPosition s k with
  | some a, some b => some (a, b)
  | _, _ => none

/-- Row ordering used by `ORDER BY position`. -/
def rowLE (a b : Row) : Prop := a.position ≤ b.position

instance : DecidableRel rowLE :=
  fun a b => inferInstanceAs (Decidable (a.position ≤ b.position))

instance : IsTotal Row rowLE := ⟨fun a b => le_total a.position b.position⟩

instance : IsTrans Row rowLE := ⟨fun _ _ _ h h' => le_trans h h'⟩

/-- `ORDER BY position` (ascending). -/
def sortRows (l : List Row) : List Row :=
  List.insertionSort rowLE l

/-- `SELECT value FROM list_items WHERE key = ?1 ORDER BY position`. -/
def selectValues (s : Store) (k : Bytes) : List Bytes :=
  (sortRows (keyRows s k)).map (·.value)

/-- `SELECT value ... ORDER BY position LIMIT n` (the source only
reaches this with `n = stop + 1 ≥ 1`). -/
def selectValuesLimit (s : Store) (k : Bytes) (n : Int) : List Bytes :=
  (selectValues s k).take n.toNat

/-- `SELECT value ... WHERE key = ?1 AND position BETWEEN ?2 AND ?3
ORDER BY position`. -/
def selectValuesBetween (s : Store) (k : Bytes) (lo hi : Int) : List Bytes :=
  (sortRows ((keyRows s k).filter
    (fun r => decide (lo ≤ r.position ∧ r.position ≤ hi)))).map (·.value)

/-- `SELECT value FROM list_items WHERE key = ?1 AND position = ?2
LIMIT 1`. -/
def selectValueAt (s : Store) (k : Bytes) (p : Int) : Option Bytes :=
  (((keyRows s k).filter (fun r => decide (r.position = p))).head?).map (·.value)

/-- `INSERT INTO list_items (key, value, position) VALUES (?,?,?)`:
appends a row with the next auto-increment id. -/
def insertRow (s : Store) (k v : Bytes) (p : Int) : Store :=
  { rows := s.rows ++ [{ id := s.nextId, key := k, value := v, position := p }],
    nextId := s.nextId + 1 }

/-- The position computed by `Command::push` for the next inserted
value: `coalesce(MIN(position), 0) - 1` (Left) or
`coalesce(MAX(position), 0) + 1` (Right). -/
def nextPosition (s : Store) (k : Bytes) (d : Direction) : Int :=
  match d with
  | .Left => (minPosition s k).getD 0 - 1
  | .Right => (maxPosition s k).getD 0 + 1

/-- `Command::push`: insert the values in argument order, re-evaluating
the extremum after each insert. -/
def push (s : Store) (k : Bytes) (d : Direction) (vs : List Bytes) : Store :=
  vs.foldl (fun st v => insertRow st k v (nextPosition st k d)) s

/-- `DELETE FROM list_items WHERE id = ?1`. -/
def deleteById (s : Store) (i : Int) : Store :=
  { rows := s.rows.filter (fun r => decide (¬ r.id = i)), nextId := s.nextId }

/-- The row selected by `SELECT id, value ... ORDER BY position ASC/DESC
LIMIT 1` inside `Command::pop` (a row of minimal resp. maximal
position). -/
def selectExtremal (d : Direction) (l : List Row) : Option Row :=
  match d with
  | .Left => (sortRows l).head?
  | .Right => (sortRows l).getLast?

/-- `Command::pop`: select the extremal row of the key, delete it by id,
and return its value; `none` when the key has no rows. -/
def popRow (s : Store) (k : Bytes) (d : Direction) : Option (Bytes × Store) :=
  match selectExtremal d (keyRows s k) with
  | none => none
  | some r => some (r.value, deleteById s r.id)

/-- `DELETE FROM list_items WHERE key = ?1 AND (position < ?2 OR
position > ?3)` (the LTRIM delete). -/
def deleteOutside (s : Store) (k : Bytes) (lo hi : Int) : Store :=
  { rows := s.rows.filter
      (fun r => decide (¬ (r.key = k ∧ (r.position < lo ∨ hi < r.position)))),
    nextId := s.nextId }

/-- `UPDATE list_items SET value = ?1 WHERE key = ?2 AND position = ?3`
(the LSET update). -/
def updateAt (s : Store) (k : Bytes) (p : Int) (v : Bytes) : Store :=
  { rows := s.rows.map
      (fun r => if r.key = k ∧ r.position = p then { r with value := v } else r),
    nextId := s.nextId }

/-! ## Index translation and integer argument parsing -/

/-- `Command::parse_index`. -/
def parse_index : Int × Int → Int → Int
  | (first_position, last_position), index =>
    if index < 0 then index + last_position + 1 else index + first_position

/-- `Command::parse_indexes`. -/
def parse_indexes (boundaries : Int × Int) (ab : Int × Int) : Int × Int :=
  (parse_index boundaries ab.1, parse_index boundaries ab.2)

/-- Rust's Unicode `char` uppercasing (`str::to_uppercase`), restricted
to what dispatch can observe.  The dispatcher only ever compares the
uppercased name against the all-ASCII command names, so the mapping
must be exact precisely on the characters whose Unicode uppercase image
is an ASCII string: `a`–`z`, dotless i `ı` (U+0131 → `I`), long s `ſ`
(U+017F → `S`), sharp s `ß` (U+00DF → `SS`), and the seven Latin
ligatures U+FB00–U+FB06 (`ﬀ ﬁ ﬂ ﬃ ﬄ ﬅ ﬆ` → `FF FI FL FFI FFL ST ST`).
Every other character either uppercases to itself or to a string
containing a non-ASCII character; in both cases the character is
non-ASCII or caseless, its image can never make the name equal to an
ASCII command name, and it is modelled as unchanged. -/
def to_uppercaseChar (c : Char) : List Char :=
  if 97 ≤ c.toNat ∧ c.toNat ≤ 122 then [Char.ofNat (c.toNat - 32)]
  else if c.toNat = 0xDF then ['S', 'S']
  else if c.toNat = 0x131 then ['I']
  else if c.toNat = 0x17F then ['S']
  else if c.toNat = 0xFB00 then ['F', 'F']
  else if c.toNat = 0xFB01 then ['F', 'I']
  else if c.toNat = 0xFB02 then ['F', 'L']
  else if c.toNat = 0xFB03 then ['F', 'F', 'I']
  else if c.toNat = 0xFB04 then ['F', 'F', 'L']
  else if c.toNat = 0xFB05 then ['S', 'T']
  else if c.toNat = 0xFB06 then ['S', 'T']
  else [c]

/-- `name.to_string().to_uppercase()` from `Command::execute` /
`handle_nonterminal_command` (Rust's locale-independent Unicode
uppercasing, see `to_uppercaseChar`). -/
def to_uppercase (s : String) : String :=
  ⟨(s.data.map to_uppercaseChar).flatten⟩

/-- Decimal digit test on a byte. -/
def isDigitByte (b : Nat) : Bool := 48 ≤ b && b ≤ 57

/-- Accumulate ASCII decimal digits into a natural number. -/
def digitsToNat (acc : Nat) : List Nat → Nat
  | [] => acc
  | d :: ds => digitsToNat (acc * 10 + (d - 48)) ds

/-- Rust `str::parse::<i64>` on a byte string (after `str::from_utf8`):
an optional `+`/`-` sign followed by at least one ASCII digit, value
within the `i64` range; anything else fails.  (A byte string containing
a non-ASCII byte either fails UTF-8 decoding or fails the digit test;
both collapse to the same parse failure in the source.) -/
def parseI64 (bs : Bytes) : Option Int :=
  match bs with
  | [] => none
  | b :: rest =>
    let signDigits : Bool × List Nat :=
      if b = 43 then (false, rest)
      else if b = 45 then (true, rest)
      else (false, bs)
    if signDigits.2 = [] ∨ ¬ signDigits.2.all isDigitByte then none
    else
      let n : Int := (digitsToNat 0 signDigits.2 : Nat)
      let v : Int := if signDigits.1 then -n else n
      if v < -(2 ^ 63) ∨ 2 ^ 63 - 1 < v then none else some v

/-- `Command::parse_argument_integer`. -/
def parse_argument_integer (bs : Bytes) : Except String Int :=
  match parseI64 bs with
  | some v => Except.ok v
  | none => Except.error "argument must be an integer"

/-! ## Command handlers (`impl Command` in `commands.rs`) -/

namespace Command

/-- `Command::llen`. -/
def llen (s : Store) (k : Bytes) : HandlerResult :=
  .ok (.Integer (count_list_items s k)) s

/-- `Command::lpop`. -/
def lpop (s : Store) (k : Bytes) : HandlerResult :=
  match popRow s k .Left with
  | some (data, s') => .ok (.BufBulk data) s'
  | none => .ok .Null s

/-- `Command::rpop`. -/
def rpop (s : Store) (k : Bytes) : HandlerResult :=
  match popRow s k .Right with
  | some (data, s') => .ok (.BufBulk data) s'
  | none => .ok .Null s

/-- `Command::lpush`. -/
def lpush (s : Store) (k : Bytes) (vs : List Bytes) : HandlerResult :=
  let s' := push s k .Left vs
  .ok (.Integer (count_list_items s' k)) s'

/-- `Command::lpushx`. -/
def lpushx (s : Store) (k : Bytes) (vs : List Bytes) : HandlerResult :=
  if count_list_items s k = 0 then .ok (.Integer 0) s
  else
    let s' := push s k .Left vs
    .ok (.Integer (count_list_items s' k)) s'

/-- `Command::rpush`. -/
def rpush (s : Store) (k : Bytes) (vs : List Bytes) : HandlerResult :=
  let s' := push s k .Right vs
  .ok (.Integer (count_list_items s' k)) s'

/-- `Command::rpushx`. -/
def rpushx (s : Store) (k : Bytes) (vs : List Bytes) : HandlerResult :=
  if count_list_items s k = 0 then .ok (.Integer 0) s
  else
    let s' := push s k .Right vs
    .ok (.Integer (count_list_items s' k)) s'

/-- `Command::lrange` (after its two integer arguments parsed). -/
def lrange (s : Store) (k : Bytes) (start stop : Int) : HandlerResult :=
  if start = 0 ∧ stop = -1 then
    .ok (.Arr ((selectValues s k).map .BufBulk)) s
  else if start = 0 ∧ 0 ≤ stop then
    .ok (.Arr ((selectValuesLimit s k (stop + 1)).map .BufBulk)) s
  else
    match find_position_boundaries s k with
    | none => .panic
    | some boundaries =>
      let se := parse_indexes boundaries (start, stop)
      if se.2 < se.1 then .ok (.Arr []) s
      else .ok (.Arr ((selectValuesBetween s k se.1 se.2).map .BufBulk)) s

/-- `Command::ltrim` (after its two integer arguments parsed). -/
def ltrim (s : Store) (k : Bytes) (start stop : Int) : HandlerResult :=
  if ¬ start = 0 ∨ ¬ stop = -1 then
    match find_position_boundaries s k with
    | none => .panic
    | some boundaries =>
      let se := parse_indexes boundaries (start, stop)
      .ok (.Str "OK") (deleteOutside s k se.1 se.2)
  else
    .ok (.Str "OK") s

/-- `Command::rpoplpush`. -/
def rpoplpush (s : Store) (source destination : Bytes) : HandlerResult :=
  match popRow s source .Right with
  | some (data, s') => .ok (.BufBulk data) (push s' destination .Left [data])
  | none => .ok .Null s

/-- `Command::lindex` (after its integer argument parsed). -/
def lindex (s : Store) (k : Bytes) (index : Int) : HandlerResult :=
  match find_position_boundaries s k with
  | none => .panic
  | some boundaries =>
    match selectValueAt s k (parse_index boundaries index) with
    | some data => .ok (.BufBulk data) s
    | none => .ok .Null s

/-- `Command::lset` (after its integer argument parsed). -/
def lset (s : Store) (k : Bytes) (index : Int) (data : Bytes) : HandlerResult :=
  match find_position_boundaries s k with
  | none => .panic
  | some boundaries =>
    let p := parse_index boundaries index
    if p < boundaries.1 ∨ boundaries.2 < p then
      .err "index out of range" s
    else
      .ok (.Str "OK") (updateAt s k p data)

/-- `Command::blocking_pop` up to the wait loop: the timeout (the last
argument) is parsed and checked before any pop; the loop itself is
real-time behaviour marked `blocks`. -/
def blocking_pop (s : Store) (args : List Bytes) : HandlerResult :=
  match parse_argument_integer ((args.getLastD [])) with
  | .error e => .err e s
  | .ok timeout => if timeout < 0 then .err "timeout is negative" s else .blocks

end Command

/-! ## Dispatcher (`Command::execute` and friends) -/

/-- `struct CommandSettings`. -/
structure CommandSettings where
  name : String
  argument_count : Int
deriving Repr, DecidableEq

/-- The `COMMAND_SETTINGS` table from `commands.rs`. -/
def COMMAND_SETTINGS : List CommandSettings :=
  [ { name := "LLEN", argument_count := 1 },
    { name := "LPOP", argument_count := 1 },
    { name := "RPOP", argument_count := 1 },
    { name := "LPUSH", argument_count := -2 },
    { name := "LPUSHX", argument_count := -2 },
    { name := "RPUSH", argument_count := -2 },
    { name := "RPUSHX", argument_count := -2 },
    { name := "LRANGE", argument_count := 3 },
    { name := "LTRIM", argument_count := 3 },
    { name := "RPOPLPUSH", argument_count := 2 },
    { name := "LINDEX", argument_count := 2 },
    { name := "LSET", argument_count := 3 },
    { name := "BLPOP", argument_count := -2 },
    { name := "BRPOP", argument_count := -2 } ]

/-- `Command::valid_argument_count`. -/
def valid_argument_count (command : CommandSettings) (nargs : Nat) : Bool :=
  (command.argument_count < 0 && -command.argument_count ≤ (nargs : Int)) ||
    (0 ≤ command.argument_count && (nargs : Int) = command.argument_count)

namespace Command

/-- The per-command handler invocation inside
`Command::handle_nonterminal_command` (each handler extracts and parses
its own arguments exactly as the source does; argument counts were
validated before dispatch).  The default branch is the source's
`unimplemented!()`. -/
def runHandler (cmdName : String) (s : Store) (args : List Bytes) : HandlerResult :=
  match cmdName with
  | "LLEN" => llen s (args.getD 0 [])
  | "LPUSH" => lpush s (args.getD 0 []) (args.drop 1)
  | "LPUSHX" => lpushx s (args.getD 0 []) (args.drop 1)
  | "RPUSH" => rpush s (args.getD 0 []) (args.drop 1)
  | "RPUSHX" => rpushx s (args.getD 0 []) (args.drop 1)
  | "LPOP" => lpop s (args.getD 0 [])
  | "RPOP" => rpop s (args.getD 0 [])
  | "LRANGE" =>
    match parse_argument_integer (args.getD 1 []),
          parse_argument_integer (args.getD 2 []) with
    | .ok start, .ok stop => lrange s (args.getD 0 []) start stop
    | .error e, _ => .err e s
    | _, .error e => .err e s
  | "LTRIM" =>
    match parse_argument_integer (args.getD 1 []),
          parse_argument_integer (args.getD 2 []) with
    | .ok start, .ok stop => ltrim s (args.getD 0 []) start stop
    | .error e, _ => .err e s
    | _, .error e => .err e s
  | "RPOPLPUSH" => rpoplpush s (args.getD 0 []) (args.getD 1 [])
  | "LINDEX" =>
    match parse_argument_integer (args.getD 1 []) with
    | .ok index => lindex s (args.getD 0 []) index
    | .error e => .err e s
  | "LSET" =>
    match parse_argument_integer (args.getD 1 []) with
    | .ok index => lset s (args.getD 0 []) index (args.getD 2 [])
    | .error e => .err e s
  | "BLPOP" => blocking_pop s args
  | "BRPOP" => blocking_pop s args
  | _ => .panic

/-- `Command::handle_nonterminal_command`: look the (case-folded) name
up in `COMMAND_SETTINGS`, validate the argument count, run the handler,
and map `Err(msg)` to the RESP error `ERR msg`. -/
def handle_nonterminal_command (s : Store) (name : String) (args : List Bytes) :
    ExecOutcome :=
  match COMMAND_SETTINGS.find? (fun settings => settings.name == to_uppercase name) with
  | none => .result (.Error "ERR unsupported") .Continue s
  | some settings =>
    if valid_argument_count settings args.length then
      match runHandler settings.name s args with
      | .ok v s' => .result v .Continue s'
      | .err msg s' => .result (.Error ("ERR " ++ msg)) .Continue s'
      | .panic => .panic
      | .blocks => .blocks
    else
      .result (.Error "ERR wrong number of arguments") .Continue s

/-- `Command::execute`: QUIT and MONITOR are terminal and handled before
any lookup or arity check; everything else goes through
`handle_nonterminal_command` with `Action::Continue`. -/
def execute (s : Store) (name : String) (args : List Bytes) : ExecOutcome :=
  match to_uppercase name with
  | "QUIT" => .result (.Str "OK") .HangUp s
  | "MONITOR" => .result (.Str "OK") .StartMonitor s
  | _ => handle_nonterminal_command s name args

end Command

/-- The store carried by a handler result (unchanged on panic or a
blocking entry). -/
def handlerStore (dflt : Store) : HandlerResult → Store
  | .ok _ s => s
  | .err _ s => s
  | .panic => dflt
  | .blocks => dflt

/-- The store carried by an execution outcome (unchanged on panic or a
blocking entry). -/
def eoStore (dflt : Store) : ExecOutcome → Store
  | .result _ _ s => s
  | .panic => dflt
  | .blocks => dflt

/-- The store after one request (unchanged on panic or a blocking
entry). -/
def storeAfter (s : Store) (name : String) (args : List Bytes) : Store :=
  match Command.execute s name args with
  | .result _ _ s' => s'
  | _ => s

/-- Stores reachable from the empty database by any sequence of
requests. -/
inductive Reachable : Store → Prop
  | init : Reachable Store.empty
  | step (s : Store) (name : String) (args : List Bytes) :
      Reachable s → Reachable (storeAfter s name args)

/-! ## Monitor bus (`src/monitor.rs`) -/

/-- The shared state of `Monitor`: the bounded queue, the head counter
`start` (messages dropped) and the tail counter `stop` (messages ever
sent). -/
structure MonitorState where
  queue : List String
  start : Nat
  stop : Nat
deriving Repr, DecidableEq

/-- The fresh bus made by `Monitor::new`. -/
def MonitorState.new : MonitorState := { queue := [], start := 0, stop := 0 }

/-- `Monitor::send`: append; on overflow drop the oldest and bump
`start`; bump `stop`. -/
def MonitorState.send (max_queue_size : Nat) (m : MonitorState) (payload : String) :
    MonitorState :=
  let q := m.queue ++ [payload]
  if max_queue_size < q.length then
    { queue := q.tail, start := m.start + 1, stop := m.stop + 1 }
  else
    { queue := q, start := m.start, stop := m.stop + 1 }

/-- A sequence of `send`s. -/
def MonitorState.sendAll (max_queue_size : Nat) (m : MonitorState)
    (msgs : List String) : MonitorState :=
  msgs.foldl (MonitorState.send max_queue_size) m

/-- The bus after the given messages have been sent to a fresh bus. -/
def monitorOf (max_queue_size : Nat) (msgs : List String) : MonitorState :=
  MonitorState.sendAll max_queue_size MonitorState.new msgs

/-- `Monitor::listen`: the new listener's position is the current
`stop`. -/
def MonitorState.listen (m : MonitorState) : Nat := m.stop

/-- Result of one `Listener::recv` against a bus state. -/
inductive RecvResult
  | delivered : String → Nat → RecvResult
  | blocked : RecvResult
  | crash : RecvResult
deriving Repr, DecidableEq

/-- `Listener::recv` at listener position `pos`, against the bus state
`m` observed under the bus lock: wait (here: `blocked`) while
`pos = stop`; otherwise fast-forward past dropped messages when
`pos < start`, read the ring at `position - start`, and advance.
`crash` is the source's `payload.unwrap()` panic (unreachable for
reachable bus states and positions). -/
def MonitorState.recv (m : MonitorState) (pos : Nat) : RecvResult :=
  if pos = m.stop then .blocked
  else
    let p := if pos < m.start then m.start else pos
    match m.queue.get? (p - m.start) with
    | some payload => .delivered payload (p + 1)
    | none => .crash

/-! ## Auxiliary definitions used by the specifications and proofs -/

/-- The integer interval `[lo, lo + n)` as a list, ascending. -/
def intRange : Int → Nat → List Int
  | _, 0 => []
  | lo, n + 1 => lo :: intRange (lo + 1) n

/-- The rows appended to a key by a right push of `vs`, starting from
auto-increment id `id0` and current maximal position `p0`. -/
def buildR (k : Bytes) : Int → Int → List Bytes → List Row
  | _, _, [] => []
  | id0, p0, v :: vs => ⟨id0, k, v, p0 + 1⟩ :: buildR k (id0 + 1) (p0 + 1) vs

/-- The rows appended to a key by a left push of `vs`, starting from
auto-increment id `id0` and current minimal position `p0`. -/
def buildL (k : Bytes) : Int → Int → List Bytes → List Row
  | _, _, [] => []
  | id0, p0, v :: vs => ⟨id0, k, v, p0 - 1⟩ :: buildL k (id0 + 1) (p0 - 1) vs

/-- The positions of a key form a contiguous integer interval (as a
multiset). -/
def KeyContig (s : Store) (k : Bytes) : Prop :=
  ∃ lo, List.Perm (positionsOf s k) (intRange lo (positionsOf s k).length)

/-- Well-formedness of the table's primary key: row ids are distinct and
below the auto-increment counter. -/
def IdsOk (s : Store) : Prop :=
  (s.rows.map (·.id)).Nodup ∧ ∀ r ∈ s.rows, r.id < s.nextId

/-- The store invariant maintained by every command. -/
def Inv (s : Store) : Prop :=
  IdsOk s ∧ ∀ k, KeyContig s k

/-- Relation between a Monitor bus state and the full trace of messages
ever sent to it: the counters count total/dropped messages and the ring
holds the suffix of the trace starting at `start`. -/
def MonitorGood (max_queue_size : Nat) (msgs : List String) (m : MonitorState) : Prop :=
  m.stop = msgs.length ∧
  m.queue = msgs.drop m.start ∧
  m.start + m.queue.length = msgs.length ∧
  m.queue.length ≤ max_queue_size ∧
  (msgs.length ≤ max_queue_size → m.start = 0) ∧
  (max_queue_size ≤ msgs.length → m.queue.length = max_queue_size)

/-! ## Lemmas: aggregates -/

theorem listMin_eq_none {l : List Int} : listMin l = none ↔ l = [] := by
  cases l <;> simp [listMin]

theorem listMax_eq_none {l : List Int} : listMax l = none ↔ l = [] := by
  cases l <;> simp [listMax]

theorem listMin_eq_some_iff {l : List Int} {m : Int} :
    listMin l = some m ↔ m ∈ l ∧ ∀ x ∈ l, m ≤ x := by
  induction l generalizing m with
  | nil => simp [listMin]
  | cons x xs ih =>
    cases h : listMin xs with
    | none =>
      have hxs : xs = [] := listMin_eq_none.mp h
      subst hxs
      constructor
      · intro h'
        have hm : m = x := by simpa [listMin] using h'.symm
        subst hm
        exact ⟨by simp, by intro y hy; simp at hy; omega⟩
      · rintro ⟨hm, _⟩
        simp at hm
        subst hm
        simp [listMin]
    | some m' =>
      obtain ⟨hm'mem, hm'le⟩ := ih.mp h
      simp only [listMin, h]
      constructor
      · rintro hmin
        have hmin' : m = min x m' := by
          simpa using hmin.symm
        subst hmin'
        constructor
        · rcases le_total x m' with hx | hx
          · simp [min_eq_left hx]
          · right
            simpa [min_eq_right hx] using hm'mem
        · intro y hy
          rcases List.mem_cons.mp hy with rfl | hy
          · exact min_le_left _ _
          · exact le_trans (min_le_right _ _) (hm'le y hy)
      · rintro ⟨hmem, hle⟩
        have h1 : m ≤ min x m' :=
          le_min (hle x (List.mem_cons_self _ _)) (hle m' (List.mem_cons_of_mem _ hm'mem))
        have h2 : min x m' ≤ m := by
          rcases List.mem_cons.mp hmem with rfl | hmem
          · exact min_le_left _ _
          · exact le_trans (min_le_right _ _) (hm'le m hmem)
        simp [le_antisymm h2 h1]

theorem listMax_eq_some_iff {l : List Int} {m : Int} :
    listMax l = some m ↔ m ∈ l ∧ ∀ x ∈ l, x ≤ m := by
  induction l generalizing m with
  | nil => simp [listMax]
  | cons x xs ih =>
    cases h : listMax xs with
    | none =>
      have hxs : xs = [] := listMax_eq_none.mp h
      subst hxs
      constructor
      · intro h'
        have hm : m = x := by simpa [listMax] using h'.symm
        subst hm
        exact ⟨by simp, by intro y hy; simp at hy; omega⟩
      · rintro ⟨hm, _⟩
        simp at hm
        subst hm
        simp [listMax]
    | some m' =>
      obtain ⟨hm'mem, hm'le⟩ := ih.mp h
      simp only [listMax, h]
      constructor
      · rintro hmax
        have hmax' : m = max x m' := by
          simpa using hmax.symm
        subst hmax'
        constructor
        · rcases le_total x m' with hx | hx
          · right
            simpa [max_eq_right hx] using hm'mem
          · simp [max_eq_left hx]
        · intro y hy
          rcases List.mem_cons.mp hy with rfl | hy
          · exact le_max_left _ _
          · exact le_trans (hm'le y hy) (le_max_right _ _)
      · rintro ⟨hmem, hle⟩
        have h1 : max x m' ≤ m :=
          max_le (hle x (List.mem_cons_self _ _)) (hle m' (List.mem_cons_of_mem _ hm'mem))
        have h2 : m ≤ max x m' := by
          rcases List.mem_cons.mp hmem with rfl | hmem
          · exact le_max_left _ _
          · exact le_trans (hm'le m hmem) (le_max_right _ _)
        simp [le_antisymm h1 h2]

/-! ## Lemmas: `intRange` -/

theorem length_intRange (lo : Int) (n : Nat) : (intRange lo n).length = n := by
  induction n generalizing lo with
  | zero => rfl
  | succ n ih => simp [intRange, ih]

theorem mem_intRange {x lo : Int} {n : Nat} :
    x ∈ intRange lo n ↔ lo ≤ x ∧ x < lo + n := by
  induction n generalizing lo with
  | zero => simp [intRange]
  | succ n ih =>
    simp only [intRange, List.mem_cons, ih]
    constructor
    · rintro (rfl | ⟨h1, h2⟩) <;> omega
    · rintro ⟨h1, h2⟩
      rcases eq_or_lt_of_le h1 with rfl | h1
      · exact Or.inl rfl
      · right; omega

theorem intRange_snoc (lo : Int) (n : Nat) :
    intRange lo (n + 1) = intRange lo n ++ [lo + n] := by
  induction n generalizing lo with
  | zero => simp [intRange]
  | succ n ih =>
    have harith : lo + 1 + (n : Int) = lo + ((n + 1 : Nat) : Int) := by
      push_cast
      ring
    calc intRange lo (n + 1 + 1) = lo :: intRange (lo + 1) (n + 1) := rfl
      _ = lo :: (intRange (lo + 1) n ++ [lo + 1 + (n : Int)]) := by rw [ih]
      _ = (lo :: intRange (lo + 1) n) ++ [lo + ((n + 1 : Nat) : Int)] := by
            rw [harith, List.cons_append]
      _ = intRange lo (n + 1) ++ [lo + ((n + 1 : Nat) : Int)] := rfl

theorem pairwise_lt_intRange (lo : Int) (n : Nat) :
    (intRange lo n).Pairwise (· < ·) := by
  induction n generalizing lo with
  | zero => exact List.Pairwise.nil
  | succ n ih =>
    refine List.Pairwise.cons ?_ (ih (lo + 1))
    intro x hx
    have := mem_intRange.mp hx
    omega

theorem nodup_intRange (lo : Int) (n : Nat) : (intRange lo n).Nodup :=
  (pairwise_lt_intRange lo n).imp ne_of_lt

/-! ## Lemmas: `sortRows` -/

theorem sortRows_perm (l : List Row) : List.Perm (sortRows l) l :=
  List.perm_insertionSort rowLE l

theorem sortRows_sorted (l : List Row) : List.Sorted rowLE (sortRows l) :=
  List.sorted_insertionSort rowLE l

theorem sortRows_eq_self {l : List Row} (h : List.Sorted rowLE l) : sortRows l = l :=
  h.insertionSort_eq

/-- Two permuted `rowLE`-sorted row lists with duplicate-free positions
are equal. -/
theorem sorted_nodupPos_unique :
    ∀ {l₁ l₂ : List Row}, List.Perm l₁ l₂ → List.Sorted rowLE l₁ → List.Sorted rowLE l₂ →
      (l₂.map (·.position)).Nodup → l₁ = l₂ := by
  intro l₁
  induction l₁ with
  | nil =>
    intro l₂ hp _ _ _
    exact (hp.symm.eq_nil).symm
  | cons a t₁ ih =>
    intro l₂ hp hs₁ hs₂ hn₂
    cases l₂ with
    | nil => exact absurd hp.eq_nil (by simp)
    | cons b t₂ =>
      have hab : a = b := by
        by_contra hne
        have ha2 : a ∈ t₂ := by
          have := hp.subset (List.mem_cons_self a t₁)
          rcases List.mem_cons.mp this with rfl | h
          · exact absurd rfl hne
          · exact h
        have hb1 : b ∈ t₁ := by
          have := hp.symm.subset (List.mem_cons_self b t₂)
          rcases List.mem_cons.mp this with h | h
          · exact absurd h.symm hne
          · exact h
        have h1 : a.position ≤ b.position := List.rel_of_sorted_cons hs₁ b hb1
        have h2 : b.position ≤ a.position := List.rel_of_sorted_cons hs₂ a ha2
        have heq : a.position = b.position := le_antisymm h1 h2
        have : b.position ∉ t₂.map (·.position) := by
          have := hn₂
          simp only [List.map_cons, List.nodup_cons] at this
          exact this.1
        exact this (heq ▸ List.mem_map_of_mem _ ha2)
      subst hab
      have ht : t₁ = t₂ :=
        ih hp.cons_inv hs₁.of_cons hs₂.of_cons
          (by simpa using hn₂.of_cons)
      rw [ht]

/-- `sortRows` of anything permuted to a sorted, position-duplicate-free
list yields exactly that list. -/
theorem sortRows_eq_of_perm_sorted {l l' : List Row} (hp : List.Perm l l')
    (hs : List.Sorted rowLE l') (hn : (l'.map (·.position)).Nodup) :
    sortRows l = l' :=
  sorted_nodupPos_unique ((sortRows_perm l).trans hp) (sortRows_sorted l) hs hn

/-! ## Lemmas: `keyRows` of the primitive mutations -/

theorem keyRows_insert_same (s : Store) (k v : Bytes) (p : Int) :
    keyRows (insertRow s k v p) k
      = keyRows s k ++ [{ id := s.nextId, key := k, value := v, position := p }] := by
  simp [keyRows, insertRow, List.filter_append]

theorem keyRows_insert_other {k' k : Bytes} (h : ¬ k' = k) (s : Store) (v : Bytes) (p : Int) :
    keyRows (insertRow s k v p) k' = keyRows s k' := by
  have h' : ¬ k = k' := fun hkk => h hkk.symm
  simp [keyRows, insertRow, List.filter_append, h']

theorem positionsOf_insert_same (s : Store) (k v : Bytes) (p : Int) :
    positionsOf (insertRow s k v p) k = positionsOf s k ++ [p] := by
  simp [positionsOf, keyRows_insert_same]

theorem count_push (s : Store) (k : Bytes) (d : Direction) (vs : List Bytes) :
    count_list_items (push s k d vs) k = count_list_items s k + vs.length := by
  induction vs generalizing s with
  | nil => simp [push]
  | cons v vs ih =>
    have hstep : push s k d (v :: vs) = push (insertRow s k v (nextPosition s k d)) k d vs := rfl
    rw [hstep, ih]
    have hone : count_list_items (insertRow s k v (nextPosition s k d)) k
        = count_list_items s k + 1 := by
      simp [count_list_items, keyRows_insert_same]
    rw [hone]
    simp only [List.length_cons]
    push_cast
    ring

theorem keyRows_push_other {k' k : Bytes} (h : ¬ k' = k) (s : Store) (d : Direction)
    (vs : List Bytes) : keyRows (push s k d vs) k' = keyRows s k' := by
  induction vs generalizing s with
  | nil => rfl
  | cons v vs ih =>
    have hstep : push s k d (v :: vs) = push (insertRow s k v (nextPosition s k d)) k d vs := rfl
    rw [hstep, ih, keyRows_insert_other h]

/-! ## Lemmas: pushes as runs of fresh positions -/

theorem maxPosition_empty {s : Store} {k : Bytes} (h : keyRows s k = []) :
    maxPosition s k = none := by
  simp [maxPosition, positionsOf, h, listMax]

theorem minPosition_empty {s : Store} {k : Bytes} (h : keyRows s k = []) :
    minPosition s k = none := by
  simp [minPosition, positionsOf, h, listMin]

theorem push_right_run (k : Bytes) :
    ∀ (vs : List Bytes) (s : Store) (p0 : Int),
      (maxPosition s k).getD 0 = p0 → (∀ r ∈ keyRows s k, r.position ≤ p0) →
      keyRows (push s k .Right vs) k = keyRows s k ++ buildR k s.nextId p0 vs := by
  intro vs
  induction vs with
  | nil => intro s p0 _ _; simp [push, buildR]
  | cons v vs ih =>
    intro s p0 hmax hle
    have hnp : nextPosition s k .Right = p0 + 1 := by
      simp [nextPosition, hmax]
    have hstep : push s k .Right (v :: vs)
        = push (insertRow s k v (p0 + 1)) k .Right vs := by
      show push (insertRow s k v (nextPosition s k .Right)) k .Right vs = _
      rw [hnp]
    set s₁ := insertRow s k v (p0 + 1) with hs₁
    have hpos₁ : positionsOf s₁ k = positionsOf s k ++ [p0 + 1] :=
      positionsOf_insert_same s k v (p0 + 1)
    have hmax₁ : maxPosition s₁ k = some (p0 + 1) := by
      rw [maxPosition, hpos₁]
      refine listMax_eq_some_iff.mpr ⟨by simp, ?_⟩
      intro x hx
      rcases List.mem_append.mp hx with hx | hx
      · obtain ⟨r, hr, rfl⟩ := List.mem_map.mp hx
        exact le_trans (hle r hr) (by omega)
      · simp at hx; omega
    have hle₁ : ∀ r ∈ keyRows s₁ k, r.position ≤ p0 + 1 := by
      intro r hr
      rw [hs₁, keyRows_insert_same] at hr
      rcases List.mem_append.mp hr with hr | hr
      · exact le_trans (hle r hr) (by omega)
      · simp at hr; simp [hr]
    have hnid : s₁.nextId = s.nextId + 1 := rfl
    rw [hstep, ih s₁ (p0 + 1) (by simp [hmax₁]) hle₁, hnid]
    rw [hs₁, keyRows_insert_same]
    simp [buildR]

theorem push_left_run (k : Bytes) :
    ∀ (vs : List Bytes) (s : Store) (p0 : Int),
      (minPosition s k).getD 0 = p0 → (∀ r ∈ keyRows s k, p0 ≤ r.position) →
      keyRows (push s k .Left vs) k = keyRows s k ++ buildL k s.nextId p0 vs := by
  intro vs
  induction vs with
  | nil => intro s p0 _ _; simp [push, buildL]
  | cons v vs ih =>
    intro s p0 hmin hle
    have hnp : nextPosition s k .Left = p0 - 1 := by
      simp [nextPosition, hmin]
    have hstep : push s k .Left (v :: vs)
        = push (insertRow s k v (p0 - 1)) k .Left vs := by
      show push (insertRow s k v (nextPosition s k .Left)) k .Left vs = _
      rw [hnp]
    set s₁ := insertRow s k v (p0 - 1) with hs₁
    have hpos₁ : positionsOf s₁ k = positionsOf s k ++ [p0 - 1] :=
      positionsOf_insert_same s k v (p0 - 1)
    have hmin₁ : minPosition s₁ k = some (p0 - 1) := by
      rw [minPosition, hpos₁]
      refine listMin_eq_some_iff.mpr ⟨by simp, ?_⟩
      intro x hx
      rcases List.mem_append.mp hx with hx | hx
      · obtain ⟨r, hr, rfl⟩ := List.mem_map.mp hx
        exact le_trans (by omega) (hle r hr)
      · simp at hx; omega
    have hle₁ : ∀ r ∈ keyRows s₁ k, p0 - 1 ≤ r.position := by
      intro r hr
      rw [hs₁, keyRows_insert_same] at hr
      rcases List.mem_append.mp hr with hr | hr
      · exact le_trans (by omega) (hle r hr)
      · simp at hr; simp [hr]
    have hnid : s₁.nextId = s.nextId + 1 := rfl
    rw [hstep, ih s₁ (p0 - 1) (by simp [hmin₁]) hle₁, hnid]
    rw [hs₁, keyRows_insert_same]
    simp [buildL]

theorem buildR_map_value (k : Bytes) :
    ∀ (vs : List Bytes) (id0 p0 : Int), (buildR k id0 p0 vs).map (·.value) = vs := by
  intro vs
  induction vs with
  | nil => intro id0 p0; rfl
  | cons v vs ih => intro id0 p0; simp [buildR, ih]

theorem buildL_map_value (k : Bytes) :
    ∀ (vs : List Bytes) (id0 p0 : Int), (buildL k id0 p0 vs).map (·.value) = vs := by
  intro vs
  induction vs with
  | nil => intro id0 p0; rfl
  | cons v vs ih => intro id0 p0; simp [buildL, ih]

theorem buildR_map_position (k : Bytes) :
    ∀ (vs : List Bytes) (id0 p0 : Int),
      (buildR k id0 p0 vs).map (·.position) = intRange (p0 + 1) vs.length := by
  intro vs
  induction vs with
  | nil => intro id0 p0; rfl
  | cons v vs ih =>
    intro id0 p0
    show (p0 + 1) :: (buildR k (id0 + 1) (p0 + 1) vs).map (·.position)
        = intRange (p0 + 1) (vs.length + 1)
    rw [ih, intRange]

theorem buildL_map_position (k : Bytes) :
    ∀ (vs : List Bytes) (id0 p0 : Int),
      (buildL k id0 p0 vs).map (·.position)
        = (intRange (p0 - vs.length) vs.length).reverse := by
  intro vs
  induction vs with
  | nil => intro id0 p0; rfl
  | cons v vs ih =>
    intro id0 p0
    have hsnoc : intRange (p0 - (vs.length + 1)) (vs.length + 1)
        = intRange (p0 - (vs.length + 1)) vs.length ++ [p0 - 1] := by
      rw [intRange_snoc]
      congr 2
      omega
    have harg : p0 - 1 - (vs.length : Int) = p0 - ((vs.length : Int) + 1) := by omega
    simp only [buildL, List.map_cons, ih, List.length_cons]
    push_cast
    rw [hsnoc, List.reverse_append]
    simp [harg]

theorem mem_buildR_pos (k : Bytes) :
    ∀ {vs : List Bytes} {id0 p0 : Int} {r : Row},
      r ∈ buildR k id0 p0 vs → p0 < r.position := by
  intro vs
  induction vs with
  | nil => intro id0 p0 r h; simp [buildR] at h
  | cons v vs ih =>
    intro id0 p0 r h
    rcases List.mem_cons.mp h with rfl | h
    · simp
    · have := ih h
      omega

theorem mem_buildL_pos (k : Bytes) :
    ∀ {vs : List Bytes} {id0 p0 : Int} {r : Row},
      r ∈ buildL k id0 p0 vs → r.position < p0 := by
  intro vs
  induction vs with
  | nil => intro id0 p0 r h; simp [buildL] at h
  | cons v vs ih =>
    intro id0 p0 r h
    rcases List.mem_cons.mp h with rfl | h
    · simp
    · have := ih h
      omega

theorem buildR_sorted (k : Bytes) :
    ∀ (vs : List Bytes) (id0 p0 : Int), List.Sorted rowLE (buildR k id0 p0 vs) := by
  intro vs
  induction vs with
  | nil => intro id0 p0; exact List.sorted_nil
  | cons v vs ih =>
    intro id0 p0
    rw [buildR, List.sorted_cons]
    exact ⟨fun r hr => le_of_lt (mem_buildR_pos k hr), ih _ _⟩

theorem buildL_pairwise_ge (k : Bytes) :
    ∀ (vs : List Bytes) (id0 p0 : Int),
      (buildL k id0 p0 vs).Pairwise (fun a b => rowLE b a) := by
  intro vs
  induction vs with
  | nil => intro id0 p0; exact List.Pairwise.nil
  | cons v vs ih =>
    intro id0 p0
    rw [buildL]
    exact List.Pairwise.cons (fun r hr => le_of_lt (mem_buildL_pos k hr)) (ih _ _)

theorem buildR_nodup_pos (k : Bytes) (vs : List Bytes) (id0 p0 : Int) :
    ((buildR k id0 p0 vs).map (·.position)).Nodup := by
  rw [buildR_map_position]
  exact nodup_intRange _ _

theorem buildL_reverse_sorted (k : Bytes) (vs : List Bytes) (id0 p0 : Int) :
    List.Sorted rowLE (buildL k id0 p0 vs).reverse := by
  rw [List.Sorted, List.pairwise_reverse]
  exact buildL_pairwise_ge k vs id0 p0

theorem buildL_reverse_nodup_pos (k : Bytes) (vs : List Bytes) (id0 p0 : Int) :
    ((buildL k id0 p0 vs).reverse.map (·.position)).Nodup := by
  rw [List.map_reverse, List.nodup_reverse, buildL_map_position, List.nodup_reverse]
  exact nodup_intRange _ _

/-! ## Lemmas: pushing onto an empty key -/

theorem count_eq_zero_iff {s : Store} {k : Bytes} :
    count_list_items s k = 0 ↔ keyRows s k = [] := by
  rw [count_list_items]
  constructor
  · intro h
    have : (keyRows s k).length = 0 := by exact_mod_cast h
    exact List.length_eq_zero.mp this
  · intro h
    simp [h]

theorem keyRows_push_right_empty {s : Store} {k : Bytes} (hkr : keyRows s k = [])
    (vs : List Bytes) :
    keyRows (push s k .Right vs) k = buildR k s.nextId 0 vs := by
  have h1 : (maxPosition s k).getD 0 = 0 := by rw [maxPosition_empty hkr]; rfl
  have h2 : ∀ r ∈ keyRows s k, r.position ≤ 0 := by rw [hkr]; simp
  rw [push_right_run k vs s 0 h1 h2, hkr, List.nil_append]

theorem keyRows_push_left_empty {s : Store} {k : Bytes} (hkr : keyRows s k = [])
    (vs : List Bytes) :
    keyRows (push s k .Left vs) k = buildL k s.nextId 0 vs := by
  have h1 : (minPosition s k).getD 0 = 0 := by rw [minPosition_empty hkr]; rfl
  have h2 : ∀ r ∈ keyRows s k, 0 ≤ r.position := by rw [hkr]; simp
  rw [push_left_run k vs s 0 h1 h2, hkr, List.nil_append]

theorem selectValues_push_right_empty {s : Store} {k : Bytes} (hkr : keyRows s k = [])
    (vs : List Bytes) :
    selectValues (push s k .Right vs) k = vs := by
  rw [selectValues, keyRows_push_right_empty hkr vs,
    sortRows_eq_self (buildR_sorted k vs s.nextId 0), buildR_map_value]

theorem selectValues_push_left_empty {s : Store} {k : Bytes} (hkr : keyRows s k = [])
    (vs : List Bytes) :
    selectValues (push s k .Left vs) k = vs.reverse := by
  rw [selectValues, keyRows_push_left_empty hkr vs,
    sortRows_eq_of_perm_sorted (List.reverse_perm _).symm
      (buildL_reverse_sorted k vs s.nextId 0) (buildL_reverse_nodup_pos k vs s.nextId 0),
    List.map_reverse, buildL_map_value]

theorem positionsOf_push_right_empty {s : Store} {k : Bytes} (hkr : keyRows s k = [])
    (vs : List Bytes) :
    positionsOf (push s k .Right vs) k = intRange 1 vs.length := by
  rw [positionsOf, keyRows_push_right_empty hkr vs, buildR_map_position]
  norm_num

theorem positionsOf_push_left_empty {s : Store} {k : Bytes} (hkr : keyRows s k = [])
    (vs : List Bytes) :
    positionsOf (push s k .Left vs) k
      = (intRange (-(vs.length : Int)) vs.length).reverse := by
  rw [positionsOf, keyRows_push_left_empty hkr vs, buildL_map_position]
  norm_num

/-! ## Lemmas: LSET's update and LTRIM's delete -/

theorem filter_map_update (k : Bytes) (p : Int) (v : Bytes) :
    ∀ rows : List Row,
      ((rows.map (fun r => if r.key = k ∧ r.position = p then { r with value := v } else r)).filter
          (fun r => decide (r.key = k)))
        = ((rows.filter (fun r => decide (r.key = k))).map
            (fun r => if r.position = p then { r with value := v } else r)) := by
  intro rows
  induction rows with
  | nil => rfl
  | cons r rows ih =>
    by_cases h1 : r.key = k
    · by_cases h2 : r.position = p
      · simp [h1, h2, ih]
      · simp [h1, h2, ih]
    · simp [h1, ih]

theorem keyRows_updateAt_same (s : Store) (k : Bytes) (p : Int) (v : Bytes) :
    keyRows (updateAt s k p v) k
      = (keyRows s k).map (fun r => if r.position = p then { r with value := v } else r) :=
  filter_map_update k p v s.rows

/-- Filtering by `q` after filtering by a weaker predicate `p` is just
filtering by `q`. -/
theorem filter_filter_of_imp {p q : Row → Bool} (hsub : ∀ r, q r = true → p r = true) :
    ∀ rows : List Row, (rows.filter p).filter q = rows.filter q := by
  intro rows
  induction rows with
  | nil => rfl
  | cons r rows ih =>
    by_cases hq : q r = true
    · have hp : p r = true := hsub r hq
      rw [List.filter_cons_of_pos hp, List.filter_cons_of_pos hq, ih,
        List.filter_cons_of_pos hq]
    · by_cases hp : p r = true
      · rw [List.filter_cons_of_pos hp, List.filter_cons_of_neg hq, ih,
          List.filter_cons_of_neg hq]
      · rw [List.filter_cons_of_neg hp, ih, List.filter_cons_of_neg hq]

/-- A row-map that fixes every `q`-row and preserves `q` leaves the
`q`-filter untouched. -/
theorem filter_map_of_untouched {g : Row → Row} {q : Row → Bool}
    (hg : ∀ r, q (g r) = q r) (hid : ∀ r, q r = true → g r = r) :
    ∀ rows : List Row, (rows.map g).filter q = rows.filter q := by
  intro rows
  induction rows with
  | nil => rfl
  | cons r rows ih =>
    by_cases hq : q r = true
    · have hq' : q (g r) = true := by rw [hg]; exact hq
      rw [List.map_cons, List.filter_cons_of_pos hq', hid r hq, ih,
        List.filter_cons_of_pos hq]
    · have hq' : ¬ q (g r) = true := by rw [hg]; exact hq
      rw [List.map_cons, List.filter_cons_of_neg hq', ih, List.filter_cons_of_neg hq]

theorem keyRows_updateAt_other {k' k : Bytes} (h : ¬ k' = k) (s : Store) (p : Int) (v : Bytes) :
    keyRows (updateAt s k p v) k' = keyRows s k' := by
  apply filter_map_of_untouched
  · intro r
    by_cases hc : r.key = k ∧ r.position = p <;> simp [hc]
  · intro r hr
    rw [decide_eq_true_eq] at hr
    have : ¬ (r.key = k ∧ r.position = p) := by
      rintro ⟨hk, -⟩
      exact h (hr.symm.trans hk)
    simp [this]

theorem positionsOf_updateAt_same (s : Store) (k : Bytes) (p : Int) (v : Bytes) :
    positionsOf (updateAt s k p v) k = positionsOf s k := by
  rw [positionsOf, keyRows_updateAt_same, List.map_map, positionsOf]
  apply List.map_congr_left
  intro r _
  by_cases h : r.position = p <;> simp [h]

theorem keyRows_deleteOutside_other {k' k : Bytes} (h : ¬ k' = k) (s : Store) (lo hi : Int) :
    keyRows (deleteOutside s k lo hi) k' = keyRows s k' := by
  apply filter_filter_of_imp
  intro r hr
  rw [decide_eq_true_eq] at hr
  rw [decide_eq_true_eq]
  rintro ⟨hk, -⟩
  exact h (hr.symm.trans hk)

/-! ## Lemmas: pop and delete-by-id -/

theorem keyRows_deleteById (s : Store) (i : Int) (k : Bytes) :
    keyRows (deleteById s i) k
      = (keyRows s k).filter (fun x => decide (¬ x.id = i)) := by
  show (s.rows.filter _).filter _ = (s.rows.filter _).filter _
  rw [List.filter_filter, List.filter_filter]
  exact List.filter_congr (fun r _ => Bool.and_comm _ _)

theorem filter_ne_id_eq_erase :
    ∀ {rows : List Row}, ((rows.map (·.id)).Nodup) → ∀ {r : Row}, r ∈ rows →
      rows.filter (fun x => decide (¬ x.id = r.id)) = rows.erase r := by
  intro rows
  induction rows with
  | nil => intro _ r hr; simp at hr
  | cons a t ih =>
    intro hn r hr
    have hn' : (t.map (·.id)).Nodup := by simpa using hn.of_cons
    have hhead : a.id ∉ t.map (·.id) := by
      simp only [List.map_cons, List.nodup_cons] at hn
      exact hn.1
    rcases List.mem_cons.mp hr with rfl | hrt
    · rw [List.filter_cons_of_neg (by simp), List.erase_cons_head]
      apply List.filter_eq_self.mpr
      intro x hx
      rw [decide_eq_true_eq]
      intro hid
      exact hhead (hid ▸ List.mem_map_of_mem _ hx)
    · have hne : ¬ a.id = r.id := by
        intro hid
        exact hhead (hid ▸ List.mem_map_of_mem _ hrt)
      have hner : ¬ a = r := fun hc => hne (hc ▸ rfl)
      rw [List.filter_cons_of_pos (by rw [decide_eq_true_eq]; exact hne),
        List.erase_cons_tail (by simpa using hner), ih hn' hrt]

theorem nodup_ids_keyRows {s : Store} (hids : (s.rows.map (·.id)).Nodup) (k : Bytes) :
    ((keyRows s k).map (·.id)).Nodup :=
  List.Nodup.sublist ((List.filter_sublist s.rows).map _) hids

theorem keyRows_deleteById_other {s : Store} {r : Row}
    (hids : (s.rows.map (·.id)).Nodup) (hr : r ∈ s.rows) {k : Bytes} (hk : ¬ k = r.key) :
    keyRows (deleteById s r.id) k = keyRows s k := by
  rw [keyRows_deleteById]
  apply List.filter_eq_self.mpr
  intro x hx
  rw [decide_eq_true_eq]
  intro hid
  have hxrows : x ∈ s.rows := (List.mem_filter.mp hx).1
  have hxkey : x.key = k := by
    have := (List.mem_filter.mp hx).2
    rwa [decide_eq_true_eq] at this
  have : x = r := List.inj_on_of_nodup_map hids hxrows hr hid
  exact hk ((hxkey.symm.trans (congrArg (·.key) this)))

/-- Appending a row strictly below every position and sorting puts it at
the head. -/
theorem sortRows_concat_min {K : List Row} {x : Row}
    (hlt : ∀ r ∈ K, x.position < r.position) (hnd : (K.map (·.position)).Nodup) :
    sortRows (K ++ [x]) = x :: sortRows K := by
  apply sortRows_eq_of_perm_sorted
  · exact (List.perm_append_singleton x K).trans ((sortRows_perm K).symm.cons x)
  · rw [List.sorted_cons]
    refine ⟨?_, sortRows_sorted K⟩
    intro b hb
    exact le_of_lt (hlt b ((sortRows_perm K).subset hb))
  · simp only [List.map_cons, List.nodup_cons]
    constructor
    · intro hmem
      obtain ⟨y, hy, hyx⟩ := List.mem_map.mp hmem
      exact absurd hyx.symm (ne_of_lt (hlt y ((sortRows_perm K).subset hy)))
    · exact (((sortRows_perm K).map (·.position)).nodup_iff).mpr hnd

/-- `pop(key, Right)` on a key whose sorted values are `l ++ [v]`:
the row with the largest position is deleted and `v` returned. -/
theorem popRow_right_spec {s : Store} {src : Bytes} {l : List Bytes} {v : Bytes}
    (hids : (s.rows.map (·.id)).Nodup) (hnd : (positionsOf s src).Nodup)
    (hsel : selectValues s src = l ++ [v]) :
    ∃ r : Row, r ∈ s.rows ∧ r.key = src ∧ r.value = v ∧
      maxPosition s src = some r.position ∧
      popRow s src .Right = some (v, deleteById s r.id) ∧
      selectValues (deleteById s r.id) src = l := by
  have hSRne : ¬ sortRows (keyRows s src) = [] := by
    intro he
    rw [selectValues, he] at hsel
    simp at hsel
  obtain ⟨SR', r, hSR⟩ : ∃ L b, sortRows (keyRows s src) = L ++ [b] := by
    rcases List.eq_nil_or_concat (sortRows (keyRows s src)) with he | h
    · exact absurd he hSRne
    · simpa using h
  have hperm : List.Perm (keyRows s src) (SR' ++ [r]) := by
    have := (sortRows_perm (keyRows s src)).symm
    rwa [hSR] at this
  have hmemr : r ∈ keyRows s src := hperm.symm.subset (by simp)
  have hrkey : r.key = src := by
    have := (List.mem_filter.mp hmemr).2
    rwa [decide_eq_true_eq] at this
  have hrrows : r ∈ s.rows := (List.mem_filter.mp hmemr).1
  have hsorted : List.Sorted rowLE (SR' ++ [r]) := hSR ▸ sortRows_sorted _
  have hmaxr : ∀ x ∈ keyRows s src, x.position ≤ r.position := by
    intro x hx
    rcases List.mem_append.mp (hperm.subset hx) with hx' | hx'
    · exact (List.pairwise_append.mp hsorted).2.2 x hx' r (by simp)
    · simp only [List.mem_singleton] at hx'
      simp [hx']
  have hvals : SR'.map (·.value) ++ [r.value] = l ++ [v] := by
    have := hsel
    rw [selectValues, hSR] at this
    simpa using this
  have hlv : SR'.map (·.value) = l ∧ r.value = v := by
    have := List.append_inj' hvals rfl
    exact ⟨this.1, by simpa using this.2⟩
  have hmax : maxPosition s src = some r.position := by
    apply listMax_eq_some_iff.mpr
    refine ⟨List.mem_map_of_mem _ hmemr, ?_⟩
    intro x hx
    obtain ⟨y, hy, rfl⟩ := List.mem_map.mp hx
    exact hmaxr y hy
  have hpop : popRow s src .Right = some (r.value, deleteById s r.id) := by
    rw [popRow, selectExtremal, hSR, List.getLast?_concat]
  have hkr_id_nodup : ((keyRows s src).map (·.id)).Nodup := nodup_ids_keyRows hids src
  have hpermdel : List.Perm (keyRows (deleteById s r.id) src) SR' := by
    rw [keyRows_deleteById, filter_ne_id_eq_erase hkr_id_nodup hmemr]
    have h1 : List.Perm (r :: (keyRows s src).erase r) (r :: SR') :=
      (List.perm_cons_erase hmemr).symm.trans
        (hperm.trans (List.perm_append_singleton r SR'))
    exact h1.cons_inv
  have hnd0 : ((keyRows s src).map (·.position)).Nodup := hnd
  have hndSR : ((SR' ++ [r]).map (·.position)).Nodup :=
    ((hperm.map (·.position)).nodup_iff).mp hnd0
  have hndSR' : (SR'.map (·.position)).Nodup :=
    List.Nodup.sublist ((List.sublist_append_left SR' [r]).map _) hndSR
  have hseldel : selectValues (deleteById s r.id) src = l := by
    rw [selectValues,
      sortRows_eq_of_perm_sorted hpermdel (List.pairwise_append.mp hsorted).1 hndSR', hlv.1]
  exact ⟨r, hrrows, hrkey, hlv.2, hmax, by rw [hpop, hlv.2], hseldel⟩

/-! ## Lemmas: the Monitor bus trace invariant -/

theorem monitorGood_send {max_queue_size : Nat} (hmax : 1 ≤ max_queue_size)
    {msgs : List String} {m : MonitorState} (hg : MonitorGood max_queue_size msgs m)
    (p : String) :
    MonitorGood max_queue_size (msgs ++ [p]) (MonitorState.send max_queue_size m p) := by
  obtain ⟨h1, h2, h3, h4, h5, h6⟩ := hg
  rw [MonitorState.send]
  by_cases ho : max_queue_size < (m.queue ++ [p]).length
  · have hqlen : m.queue.length = max_queue_size := by
      simp only [List.length_append, List.length_singleton] at ho
      omega
    have hql1 : 1 ≤ m.queue.length := by omega
    have hstart : m.start + max_queue_size = msgs.length := by omega
    have hstartlt : m.start + 1 ≤ msgs.length := by omega
    have hqtail : (m.queue ++ [p]).tail = (msgs ++ [p]).drop (m.start + 1) := by
      rw [List.drop_append_of_le_length hstartlt, ← List.tail_drop, ← h2]
      cases hq : m.queue with
      | nil => rw [hq] at hql1; simp at hql1
      | cons q0 rest => simp
    have htail_len : (m.queue ++ [p]).tail.length = m.queue.length := by
      simp only [List.length_tail, List.length_append, List.length_singleton]
      omega
    have hmsgs_len : (msgs ++ [p]).length = msgs.length + 1 := by
      simp
    rw [if_pos ho]
    refine ⟨?_, hqtail, ?_, ?_, ?_, ?_⟩
    · show m.stop + 1 = (msgs ++ [p]).length
      rw [hmsgs_len, h1]
    · show m.start + 1 + (m.queue ++ [p]).tail.length = (msgs ++ [p]).length
      rw [htail_len, hmsgs_len]
      omega
    · show (m.queue ++ [p]).tail.length ≤ max_queue_size
      rw [htail_len]
      omega
    · intro hle
      rw [hmsgs_len] at hle
      show m.start + 1 = 0
      omega
    · intro hge
      show (m.queue ++ [p]).tail.length = max_queue_size
      rw [htail_len]
      omega
  · have hstartle : m.start ≤ msgs.length := by omega
    have hmsgs_len : (msgs ++ [p]).length = msgs.length + 1 := by
      simp
    have hq_len : (m.queue ++ [p]).length = m.queue.length + 1 := by
      simp
    rw [if_neg ho]
    rw [hq_len] at ho
    refine ⟨?_, ?_, ?_, ?_, ?_, ?_⟩
    · show m.stop + 1 = (msgs ++ [p]).length
      rw [hmsgs_len, h1]
    · show m.queue ++ [p] = (msgs ++ [p]).drop m.start
      rw [List.drop_append_of_le_length hstartle, ← h2]
    · show m.start + (m.queue ++ [p]).length = (msgs ++ [p]).length
      rw [hq_len, hmsgs_len]
      omega
    · show (m.queue ++ [p]).length ≤ max_queue_size
      rw [hq_len]
      omega
    · intro hle
      rw [hmsgs_len] at hle
      show m.start = 0
      omega
    · intro hge
      rw [hmsgs_len] at hge
      show (m.queue ++ [p]).length = max_queue_size
      rw [hq_len]
      omega

theorem monitorGood_sendAll {max_queue_size : Nat} (hmax : 1 ≤ max_queue_size) :
    ∀ (post : List String) (msgs : List String) (m : MonitorState),
      MonitorGood max_queue_size msgs m →
      MonitorGood max_queue_size (msgs ++ post) (MonitorState.sendAll max_queue_size m post) := by
  intro post
  induction post with
  | nil =>
    intro msgs m hg
    simpa [MonitorState.sendAll] using hg
  | cons p post ih =>
    intro msgs m hg
    have hstep : MonitorState.sendAll max_queue_size m (p :: post)
        = MonitorState.sendAll max_queue_size (MonitorState.send max_queue_size m p) post := rfl
    rw [hstep]
    have := ih (msgs ++ [p]) _ (monitorGood_send hmax hg p)
    simpa using this

theorem monitorOf_good {max_queue_size : Nat} (hmax : 1 ≤ max_queue_size)
    (msgs : List String) :
    MonitorGood max_queue_size msgs (monitorOf max_queue_size msgs) := by
  have hnew : MonitorGood max_queue_size [] MonitorState.new := by
    refine ⟨rfl, rfl, rfl, ?_, fun _ => rfl, ?_⟩
    · show MonitorState.new.queue.length ≤ max_queue_size
      simp [MonitorState.new]
    · intro h
      have h' : max_queue_size ≤ 0 := by simpa using h
      have h0 : MonitorState.new.queue.length = 0 := rfl
      omega
  have := monitorGood_sendAll hmax msgs [] MonitorState.new hnew
  simpa [monitorOf] using this

/-- A key is non-empty exactly when the boundary query returns values. -/
theorem boundaries_eq_some_iff {s : Store} {k : Bytes} :
    (∃ f l, find_position_boundaries s k = some (f, l)) ↔ ¬ count_list_items s k = 0 := by
  rw [count_eq_zero_iff (s := s) (k := k)]
  constructor
  · rintro ⟨f, l, hfl⟩ hnil
    rw [find_position_boundaries, minPosition, positionsOf, hnil] at hfl
    simp [listMin] at hfl
  · intro hne
    have : ∃ r rs, keyRows s k = r :: rs := by
      cases hk : keyRows s k with
      | nil => exact absurd hk hne
      | cons r rs => exact ⟨r, rs, rfl⟩
    obtain ⟨r, rs, hk⟩ := this
    have hmin : ¬ minPosition s k = none := by
      rw [minPosition, listMin_eq_none]
      simp [positionsOf, hk]
    have hmax : ¬ maxPosition s k = none := by
      rw [maxPosition, listMax_eq_none]
      simp [positionsOf, hk]
    cases hminv : minPosition s k with
    | none => exact absurd hminv hmin
    | some f =>
      cases hmaxv : maxPosition s k with
      | none => exact absurd hmaxv hmax
      | some l =>
        exact ⟨f, l, by rw [find_position_boundaries, hminv, hmaxv]⟩

/-! ## Lemmas: the contiguity invariant (claim C10) -/

theorem intRange_congr {lo1 lo2 : Int} {n1 n2 : Nat} (h1 : lo1 = lo2) (h2 : n1 = n2) :
    intRange lo1 n1 = intRange lo2 n2 := by
  rw [h1, h2]

/-- Filtering an integer interval by an interval predicate yields an
integer interval. -/
theorem filter_intRange (lo' hi' : Int) :
    ∀ (n : Nat) (lo : Int),
      (intRange lo n).filter (fun x => decide (lo' ≤ x ∧ x ≤ hi'))
        = intRange (max lo lo') (min (lo + n) (hi' + 1) - max lo lo').toNat := by
  intro n
  induction n with
  | zero =>
    intro lo
    have h0 : (min (lo + ((0 : Nat) : Int)) (hi' + 1) - max lo lo').toNat = 0 := by omega
    rw [h0]
    rfl
  | succ n ih =>
    intro lo
    show (lo :: intRange (lo + 1) n).filter (fun x => decide (lo' ≤ x ∧ x ≤ hi'))
        = intRange (max lo lo') (min (lo + ((n + 1 : Nat) : Int)) (hi' + 1) - max lo lo').toNat
    by_cases hm : lo' ≤ lo ∧ lo ≤ hi'
    · rw [List.filter_cons_of_pos (by rw [decide_eq_true_eq]; exact hm), ih (lo + 1)]
      have hmax1 : max (lo + 1) lo' = lo + 1 := by omega
      have hmax0 : max lo lo' = lo := by omega
      rw [hmax1, hmax0]
      have hK : (min (lo + ((n + 1 : Nat) : Int)) (hi' + 1) - lo).toNat
          = (min (lo + 1 + (n : Int)) (hi' + 1) - (lo + 1)).toNat + 1 := by
        push_cast
        omega
      rw [hK]
      rfl
    · rw [List.filter_cons_of_neg (by rw [decide_eq_true_eq]; exact hm), ih (lo + 1)]
      rcases not_and_or.mp hm with h | h
      · have e1 : max (lo + 1) lo' = max lo lo' := by omega
        rw [e1]
        have e2 : (min (lo + 1 + (n : Int)) (hi' + 1) - max lo lo').toNat
            = (min (lo + ((n + 1 : Nat) : Int)) (hi' + 1) - max lo lo').toNat := by
          push_cast
          omega
        rw [e2]
      · have e1 : (min (lo + 1 + (n : Int)) (hi' + 1) - max (lo + 1) lo').toNat = 0 := by
          omega
        have e2 : (min (lo + ((n + 1 : Nat) : Int)) (hi' + 1) - max lo lo').toNat = 0 := by
          push_cast
          omega
        rw [e1, e2]
        rfl

theorem keyContig_congr {s s' : Store} {k : Bytes}
    (he : positionsOf s' k = positionsOf s k) :
    KeyContig s k → KeyContig s' k := by
  rintro ⟨lo, hp⟩
  exact ⟨lo, by rw [he]; exact hp⟩

/-- The boundaries of a key whose positions are a permutation of
`[lo, lo + n)` with `n ≥ 1`. -/
theorem contig_minmax {s : Store} {k : Bytes} {lo : Int} {n : Nat}
    (hperm : List.Perm (positionsOf s k) (intRange lo n)) (hn : 1 ≤ n) :
    minPosition s k = some lo ∧ maxPosition s k = some (lo + n - 1) := by
  have hmemlo : lo ∈ positionsOf s k :=
    hperm.symm.subset (mem_intRange.mpr (by omega))
  have hmemhi : lo + (n : Int) - 1 ∈ positionsOf s k :=
    hperm.symm.subset (mem_intRange.mpr (by omega))
  constructor
  · apply listMin_eq_some_iff.mpr
    refine ⟨hmemlo, ?_⟩
    intro x hx
    exact (mem_intRange.mp (hperm.subset hx)).1
  · apply listMax_eq_some_iff.mpr
    refine ⟨hmemhi, ?_⟩
    intro x hx
    have := (mem_intRange.mp (hperm.subset hx)).2
    omega

theorem IdsOk_filter {s : Store} (p : Row → Bool) (h : IdsOk s) :
    IdsOk { rows := s.rows.filter p, nextId := s.nextId } := by
  constructor
  · exact List.Nodup.sublist ((List.filter_sublist _).map _) h.1
  · intro r hr
    exact h.2 r (List.mem_of_mem_filter hr)

theorem IdsOk_insertRow {s : Store} (k v : Bytes) (p : Int) (h : IdsOk s) :
    IdsOk (insertRow s k v p) := by
  obtain ⟨hn, hb⟩ := h
  have hnotin : s.nextId ∉ s.rows.map (·.id) := by
    intro hmem
    obtain ⟨r, hr, hid⟩ := List.mem_map.mp hmem
    have := hb r hr
    omega
  constructor
  · show List.Nodup (List.map (fun r : Row => r.id)
      (s.rows ++ ([{ id := s.nextId, key := k, value := v, position := p }] : List Row)))
    rw [List.map_append, List.map_singleton]
    exact ((List.perm_append_singleton _ _).nodup_iff).mpr (List.nodup_cons.mpr ⟨hnotin, hn⟩)
  · intro r hr
    show r.id < s.nextId + 1
    rcases List.mem_append.mp hr with hr | hr
    · have := hb r hr
      omega
    · simp only [List.mem_singleton] at hr
      rw [hr]
      simp

theorem IdsOk_updateAt {s : Store} (k : Bytes) (p : Int) (v : Bytes) (h : IdsOk s) :
    IdsOk (updateAt s k p v) := by
  obtain ⟨hn, hb⟩ := h
  have hmap : (updateAt s k p v).rows.map (·.id) = s.rows.map (·.id) := by
    rw [updateAt]
    dsimp only
    rw [List.map_map]
    apply List.map_congr_left
    intro r _
    by_cases hc : r.key = k ∧ r.position = p <;> simp [hc]
  constructor
  · rw [hmap]
    exact hn
  · intro r hr
    obtain ⟨r0, hr0, rfl⟩ := List.mem_map.mp hr
    show (if r0.key = k ∧ r0.position = p then { r0 with value := v } else r0).id < s.nextId
    by_cases hc : r0.key = k ∧ r0.position = p <;> simp [hc] <;> exact hb r0 hr0

theorem keyContig_insertRow_nextPos (s : Store) (k v : Bytes) (d : Direction)
    (h : KeyContig s k) :
    KeyContig (insertRow s k v (nextPosition s k d)) k := by
  obtain ⟨lo, hperm⟩ := h
  have hpos' : positionsOf (insertRow s k v (nextPosition s k d)) k
      = positionsOf s k ++ [nextPosition s k d] := positionsOf_insert_same s k v _
  by_cases hn : (positionsOf s k).length = 0
  · have hnil : positionsOf s k = [] := List.length_eq_zero.mp hn
    refine ⟨nextPosition s k d, ?_⟩
    rw [hpos', hnil, List.nil_append]
    show List.Perm [nextPosition s k d] (intRange (nextPosition s k d) 1)
    exact List.Perm.refl _
  · have hn1 : 1 ≤ (positionsOf s k).length := by omega
    have hmm := contig_minmax hperm hn1
    cases d with
    | Left =>
      have hnp : nextPosition s k .Left = lo - 1 := by
        rw [nextPosition, hmm.1]
        rfl
      refine ⟨lo - 1, ?_⟩
      rw [hpos', hnp]
      have hlen : (positionsOf s k ++ [lo - 1]).length = (positionsOf s k).length + 1 := by
        simp
      rw [hlen]
      have hsplit : intRange (lo - 1) ((positionsOf s k).length + 1)
          = (lo - 1) :: intRange lo (positionsOf s k).length := by
        have harg : lo - 1 + 1 = lo := by omega
        rw [intRange, harg]
      rw [hsplit]
      exact (List.perm_append_singleton _ _).trans (hperm.cons _)
    | Right =>
      have hnp : nextPosition s k .Right = lo + (positionsOf s k).length := by
        rw [nextPosition, hmm.2]
        show lo + ((positionsOf s k).length : Int) - 1 + 1 = _
        omega
      refine ⟨lo, ?_⟩
      rw [hpos', hnp]
      have hlen : (positionsOf s k ++ [lo + ((positionsOf s k).length : Int)]).length
          = (positionsOf s k).length + 1 := by
        simp
      rw [hlen, intRange_snoc]
      exact hperm.append_right _

theorem positionsOf_insert_other {k' k : Bytes} (h : ¬ k' = k) (s : Store) (v : Bytes)
    (p : Int) : positionsOf (insertRow s k v p) k' = positionsOf s k' := by
  rw [positionsOf, keyRows_insert_other h, positionsOf]

theorem Inv_insertRow_nextPos {s : Store} (k v : Bytes) (d : Direction) (h : Inv s) :
    Inv (insertRow s k v (nextPosition s k d)) := by
  obtain ⟨hids, hcontig⟩ := h
  refine ⟨IdsOk_insertRow k v _ hids, ?_⟩
  intro k'
  by_cases hk' : k' = k
  · subst hk'
    exact keyContig_insertRow_nextPos s k' v d (hcontig k')
  · exact keyContig_congr (positionsOf_insert_other hk' s v _) (hcontig k')

theorem Inv_push (k : Bytes) (d : Direction) :
    ∀ (vs : List Bytes) (s : Store), Inv s → Inv (push s k d vs) := by
  intro vs
  induction vs with
  | nil => intro s h; exact h
  | cons v vs ih =>
    intro s h
    exact ih (insertRow s k v (nextPosition s k d)) (Inv_insertRow_nextPos k v d h)

/-- The row picked by `pop`'s `ORDER BY position ASC/DESC LIMIT 1` is a
row of the key with minimal resp. maximal position. -/
theorem selectExtremal_spec {d : Direction} {l : List Row} {r : Row}
    (h : selectExtremal d l = some r) :
    r ∈ l ∧ ∀ x ∈ l,
      (match d with
       | Direction.Left => r.position ≤ x.position
       | Direction.Right => x.position ≤ r.position) := by
  cases d with
  | Left =>
    rw [selectExtremal] at h
    cases hs : sortRows l with
    | nil => rw [hs] at h; cases h
    | cons a t =>
      rw [hs] at h
      have har : a = r := by
        have := h
        simp only [List.head?_cons] at this
        exact Option.some.inj this
      subst har
      have hsorted : List.Sorted rowLE (a :: t) := hs ▸ sortRows_sorted l
      constructor
      · exact (sortRows_perm l).subset (hs ▸ List.mem_cons_self a t)
      · intro x hx
        have hx' : x ∈ a :: t := hs ▸ (sortRows_perm l).symm.subset hx
        rcases List.mem_cons.mp hx' with rfl | hx'
        · exact le_refl _
        · exact List.rel_of_sorted_cons hsorted x hx'
  | Right =>
    rw [selectExtremal] at h
    rcases List.eq_nil_or_concat (sortRows l) with hs | ⟨L, b, hs⟩
    · rw [hs] at h; cases h
    · rw [List.concat_eq_append] at hs
      rw [hs, List.getLast?_concat] at h
      have hbr : b = r := Option.some.inj h
      subst hbr
      have hsorted : List.Sorted rowLE (L ++ [b]) := hs ▸ sortRows_sorted l
      constructor
      · exact (sortRows_perm l).subset (hs ▸ (by simp))
      · intro x hx
        have hx' : x ∈ L ++ [b] := hs ▸ (sortRows_perm l).symm.subset hx
        rcases List.mem_append.mp hx' with hx' | hx'
        · exact (List.pairwise_append.mp hsorted).2.2 x hx' b (by simp)
        · simp only [List.mem_singleton] at hx'
          simp [hx']

/-- `pop` preserves the store invariant: it removes a row with extremal
position, shrinking the key's interval from one end. -/
theorem Inv_popRow {s : Store} {k : Bytes} {d : Direction} {v : Bytes} {s' : Store}
    (h : Inv s) (hpop : popRow s k d = some (v, s')) : Inv s' := by
  obtain ⟨⟨hids, hidbd⟩, hcontig⟩ := h
  rw [popRow] at hpop
  cases hsel : selectExtremal d (keyRows s k) with
  | none => rw [hsel] at hpop; cases hpop
  | some r =>
    rw [hsel] at hpop
    have hpair := Option.some.inj hpop
    have hs'' : deleteById s r.id = s' := congrArg Prod.snd hpair
    obtain ⟨hmem, hext⟩ := selectExtremal_spec hsel
    have hrkey : r.key = k := by
      have := (List.mem_filter.mp hmem).2
      rwa [decide_eq_true_eq] at this
    have hrrows : r ∈ s.rows := (List.mem_filter.mp hmem).1
    rw [← hs'']
    constructor
    · exact IdsOk_filter _ ⟨hids, hidbd⟩
    · intro k'
      by_cases hk' : k' = k
      · subst hk'
        obtain ⟨lo, hperm⟩ := hcontig k'
        have hkr_nodup_ids := nodup_ids_keyRows hids k'
        have hkrdel : keyRows (deleteById s r.id) k' = (keyRows s k').erase r := by
          rw [keyRows_deleteById, filter_ne_id_eq_erase hkr_nodup_ids hmem]
        have hperm2 : List.Perm (keyRows s k') (r :: keyRows (deleteById s r.id) k') := by
          rw [hkrdel]
          exact List.perm_cons_erase hmem
        have hposperm : List.Perm (positionsOf s k')
            (r.position :: positionsOf (deleteById s r.id) k') := by
          have := hperm2.map (fun x : Row => x.position)
          simpa [positionsOf] using this
        have hn1 : 1 ≤ (positionsOf s k').length := by
          have hmemp : r.position ∈ positionsOf s k' := List.mem_map_of_mem _ hmem
          cases hpv : positionsOf s k' with
          | nil => rw [hpv] at hmemp; simp at hmemp
          | cons a t => simp [hpv]
        have hmm := contig_minmax hperm hn1
        have hlen' : (positionsOf (deleteById s r.id) k').length + 1
            = (positionsOf s k').length := by
          have := hposperm.length_eq
          simp only [List.length_cons] at this
          omega
        have hchain : List.Perm (r.position :: positionsOf (deleteById s r.id) k')
            (intRange lo (positionsOf s k').length) := hposperm.symm.trans hperm
        cases d with
        | Left =>
          have hrpos : r.position = lo := by
            have hchar := listMin_eq_some_iff.mp hmm.1
            obtain ⟨y, hy, hyy⟩ := List.mem_map.mp hchar.1
            have h1 : r.position ≤ lo := by
              rw [← hyy]
              exact hext y hy
            have h2 : lo ≤ r.position := hchar.2 _ (List.mem_map_of_mem _ hmem)
            omega
          have hsplit : intRange lo (positionsOf s k').length
              = lo :: intRange (lo + 1) (positionsOf (deleteById s r.id) k').length := by
            rw [← hlen']
            rfl
          rw [hrpos, hsplit] at hchain
          exact ⟨lo + 1, hchain.cons_inv⟩
        | Right =>
          have hrpos : r.position = lo + (positionsOf s k').length - 1 := by
            have hchar := listMax_eq_some_iff.mp hmm.2
            obtain ⟨y, hy, hyy⟩ := List.mem_map.mp hchar.1
            have h1 : lo + (positionsOf s k').length - 1 ≤ r.position := by
              rw [← hyy]
              exact hext y hy
            have h2 : r.position ≤ lo + (positionsOf s k').length - 1 :=
              hchar.2 _ (List.mem_map_of_mem _ hmem)
            omega
          have hsplit : intRange lo (positionsOf s k').length
              = intRange lo (positionsOf (deleteById s r.id) k').length
                  ++ [lo + (positionsOf (deleteById s r.id) k').length] := by
            rw [← hlen', intRange_snoc]
          have hcast : lo + ((positionsOf (deleteById s r.id) k').length : Int)
              = lo + ((positionsOf s k').length : Int) - 1 := by
            omega
          rw [hsplit, hcast] at hchain
          have hchain2 : List.Perm
              (r.position :: positionsOf (deleteById s r.id) k')
              ((lo + ((positionsOf s k').length : Int) - 1)
                :: intRange lo (positionsOf (deleteById s r.id) k').length) :=
            hchain.trans (List.perm_append_singleton _ _)
          rw [hrpos] at hchain2
          exact ⟨lo, hchain2.cons_inv⟩
      · refine keyContig_congr ?_ (hcontig k')
        rw [positionsOf, keyRows_deleteById_other hids hrrows (by rw [hrkey]; exact hk'),
          positionsOf]

/-- The positions of the rows kept by an interval filter. -/
theorem map_position_filter_between (lo hi : Int) :
    ∀ rows : List Row,
      ((rows.filter (fun r => decide (lo ≤ r.position ∧ r.position ≤ hi))).map (·.position))
        = (rows.map (·.position)).filter (fun x => decide (lo ≤ x ∧ x ≤ hi)) := by
  intro rows
  induction rows with
  | nil => rfl
  | cons a rows ih =>
    by_cases hc : lo ≤ a.position ∧ a.position ≤ hi
    · rw [List.filter_cons_of_pos (by rw [decide_eq_true_eq]; exact hc), List.map_cons,
        List.map_cons, List.filter_cons_of_pos (by rw [decide_eq_true_eq]; exact hc), ih]
    · rw [List.filter_cons_of_neg (by rw [decide_eq_true_eq]; exact hc), List.map_cons,
        List.filter_cons_of_neg (by rw [decide_eq_true_eq]; exact hc), ih]

/-- LTRIM's delete keeps exactly the key's rows inside `[lo, hi]`. -/
theorem filter_outside_same (k : Bytes) (lo hi : Int) :
    ∀ rows : List Row,
      ((rows.filter
          (fun r => decide (¬ (r.key = k ∧ (r.position < lo ∨ hi < r.position))))).filter
          (fun r => decide (r.key = k)))
        = ((rows.filter (fun r => decide (r.key = k))).filter
            (fun r => decide (lo ≤ r.position ∧ r.position ≤ hi))) := by
  intro rows
  induction rows with
  | nil => rfl
  | cons a rows ih =>
    by_cases hk : a.key = k
    · by_cases hb : lo ≤ a.position ∧ a.position ≤ hi
      · have hkeep : ¬ (a.key = k ∧ (a.position < lo ∨ hi < a.position)) := by
          rintro ⟨-, hc⟩
          omega
        rw [List.filter_cons_of_pos (by rw [decide_eq_true_eq]; exact hkeep),
          List.filter_cons_of_pos (by rw [decide_eq_true_eq]; exact hk),
          List.filter_cons_of_pos (by rw [decide_eq_true_eq]; exact hk),
          List.filter_cons_of_pos (by rw [decide_eq_true_eq]; exact hb), ih]
      · have hdrop : a.key = k ∧ (a.position < lo ∨ hi < a.position) := by
          refine ⟨hk, ?_⟩
          omega
        rw [List.filter_cons_of_neg (by rw [decide_eq_true_eq]; exact not_not_intro hdrop),
          List.filter_cons_of_pos (by rw [decide_eq_true_eq]; exact hk),
          List.filter_cons_of_neg (by rw [decide_eq_true_eq]; exact hb), ih]
    · have hkeep : ¬ (a.key = k ∧ (a.position < lo ∨ hi < a.position)) := by
        rintro ⟨hc, -⟩
        exact hk hc
      rw [List.filter_cons_of_pos (by rw [decide_eq_true_eq]; exact hkeep),
        List.filter_cons_of_neg (by rw [decide_eq_true_eq]; exact hk),
        List.filter_cons_of_neg (by rw [decide_eq_true_eq]; exact hk), ih]

theorem keyRows_deleteOutside_same (s : Store) (k : Bytes) (lo hi : Int) :
    keyRows (deleteOutside s k lo hi) k
      = (keyRows s k).filter (fun r => decide (lo ≤ r.position ∧ r.position ≤ hi)) :=
  filter_outside_same k lo hi s.rows

/-- LTRIM's delete preserves the invariant: it cuts a sub-interval out
of the key's interval. -/
theorem Inv_deleteOutside {s : Store} (k : Bytes) (lo hi : Int) (h : Inv s) :
    Inv (deleteOutside s k lo hi) := by
  obtain ⟨hids, hcontig⟩ := h
  refine ⟨IdsOk_filter _ ⟨hids.1, hids.2⟩, ?_⟩
  intro k'
  by_cases hk' : k' = k
  · subst hk'
    obtain ⟨lo0, hperm⟩ := hcontig k'
    have hpos : positionsOf (deleteOutside s k' lo hi) k'
        = (positionsOf s k').filter (fun x => decide (lo ≤ x ∧ x ≤ hi)) := by
      rw [positionsOf, keyRows_deleteOutside_same, map_position_filter_between, positionsOf]
    have hfperm : List.Perm (positionsOf (deleteOutside s k' lo hi) k')
        ((intRange lo0 (positionsOf s k').length).filter
          (fun x => decide (lo ≤ x ∧ x ≤ hi))) := by
      rw [hpos]
      exact hperm.filter _
    rw [filter_intRange] at hfperm
    refine ⟨max lo0 lo, ?_⟩
    have hlen : (positionsOf (deleteOutside s k' lo hi) k').length
        = (min (lo0 + ((positionsOf s k').length : Int)) (hi + 1) - max lo0 lo).toNat := by
      rw [hfperm.length_eq, length_intRange]
    rw [hlen]
    exact hfperm
  · refine keyContig_congr ?_ (hcontig k')
    rw [positionsOf, keyRows_deleteOutside_other hk' s lo hi, positionsOf]

/-- LSET's update preserves the invariant: positions and ids are
untouched. -/
theorem Inv_updateAt {s : Store} (k : Bytes) (p : Int) (v : Bytes) (h : Inv s) :
    Inv (updateAt s k p v) := by
  obtain ⟨hids, hcontig⟩ := h
  refine ⟨IdsOk_updateAt k p v ⟨hids.1, hids.2⟩, ?_⟩
  intro k'
  by_cases hk' : k' = k
  · subst hk'
    exact keyContig_congr (positionsOf_updateAt_same s k' p v) (hcontig k')
  · refine keyContig_congr ?_ (hcontig k')
    rw [positionsOf, keyRows_updateAt_other hk' s p v, positionsOf]

/-! ## Lemmas: every command preserves the invariant -/

theorem Inv_lpop (s : Store) (k : Bytes) (h : Inv s) :
    Inv (handlerStore s (Command.lpop s k)) := by
  rw [Command.lpop]
  cases hp : popRow s k .Left with
  | none => exact h
  | some ds =>
    obtain ⟨dv, s'⟩ := ds
    exact Inv_popRow h hp

theorem Inv_rpop (s : Store) (k : Bytes) (h : Inv s) :
    Inv (handlerStore s (Command.rpop s k)) := by
  rw [Command.rpop]
  cases hp : popRow s k .Right with
  | none => exact h
  | some ds =>
    obtain ⟨dv, s'⟩ := ds
    exact Inv_popRow h hp

theorem Inv_lpushx (s : Store) (k : Bytes) (vs : List Bytes) (h : Inv s) :
    Inv (handlerStore s (Command.lpushx s k vs)) := by
  rw [Command.lpushx]
  by_cases hc : count_list_items s k = 0
  · rw [if_pos hc]
    exact h
  · rw [if_neg hc]
    exact Inv_push k .Left vs s h

theorem Inv_rpushx (s : Store) (k : Bytes) (vs : List Bytes) (h : Inv s) :
    Inv (handlerStore s (Command.rpushx s k vs)) := by
  rw [Command.rpushx]
  by_cases hc : count_list_items s k = 0
  · rw [if_pos hc]
    exact h
  · rw [if_neg hc]
    exact Inv_push k .Right vs s h

theorem Inv_lrange (s : Store) (k : Bytes) (a b : Int) (h : Inv s) :
    Inv (handlerStore s (Command.lrange s k a b)) := by
  have hstore : handlerStore s (Command.lrange s k a b) = s := by
    rw [Command.lrange]
    split
    · rfl
    · split
      · rfl
      · cases find_position_boundaries s k with
        | none => rfl
        | some bd =>
          dsimp only
          split
          · rfl
          · rfl
  rw [hstore]
  exact h

theorem Inv_ltrim (s : Store) (k : Bytes) (a b : Int) (h : Inv s) :
    Inv (handlerStore s (Command.ltrim s k a b)) := by
  rw [Command.ltrim]
  split
  · cases find_position_boundaries s k with
    | none => exact h
    | some bd =>
      dsimp only
      exact Inv_deleteOutside k _ _ h
  · exact h

theorem Inv_rpoplpush_handler (s : Store) (src dst : Bytes) (h : Inv s) :
    Inv (handlerStore s (Command.rpoplpush s src dst)) := by
  rw [Command.rpoplpush]
  cases hp : popRow s src .Right with
  | none => exact h
  | some ds =>
    obtain ⟨dv, s₁⟩ := ds
    exact Inv_push dst .Left [dv] s₁ (Inv_popRow h hp)

theorem Inv_lindex (s : Store) (k : Bytes) (i : Int) (h : Inv s) :
    Inv (handlerStore s (Command.lindex s k i)) := by
  have hstore : handlerStore s (Command.lindex s k i) = s := by
    rw [Command.lindex]
    cases find_position_boundaries s k with
    | none => rfl
    | some bd =>
      dsimp only
      cases selectValueAt s k (parse_index bd i) with
      | none => rfl
      | some dv => rfl
  rw [hstore]
  exact h

theorem Inv_lset (s : Store) (k : Bytes) (i : Int) (v : Bytes) (h : Inv s) :
    Inv (handlerStore s (Command.lset s k i v)) := by
  rw [Command.lset]
  cases find_position_boundaries s k with
  | none => exact h
  | some bd =>
    dsimp only
    split
    · exact h
    · exact Inv_updateAt k _ v h

theorem Inv_blocking_pop (s : Store) (args : List Bytes) (h : Inv s) :
    Inv (handlerStore s (Command.blocking_pop s args)) := by
  rw [Command.blocking_pop]
  cases parse_argument_integer (args.getLastD []) with
  | error e => exact h
  | ok t =>
    dsimp only
    split
    · exact h
    · exact h

theorem Inv_runHandler (cmdName : String) (s : Store) (args : List Bytes) (h : Inv s) :
    Inv (handlerStore s (Command.runHandler cmdName s args)) := by
  rw [Command.runHandler.eq_def]
  split
  · exact h
  · exact Inv_push _ .Left _ s h
  · exact Inv_lpushx s _ _ h
  · exact Inv_push _ .Right _ s h
  · exact Inv_rpushx s _ _ h
  · exact Inv_lpop s _ h
  · exact Inv_rpop s _ h
  · cases hp1 : parse_argument_integer (args.getD 1 []) with
    | ok a =>
      cases hp2 : parse_argument_integer (args.getD 2 []) with
      | ok b => exact Inv_lrange s _ a b h
      | error e => exact h
    | error e =>
      cases hp2 : parse_argument_integer (args.getD 2 []) with
      | ok b => exact h
      | error e2 => exact h
  · cases hp1 : parse_argument_integer (args.getD 1 []) with
    | ok a =>
      cases hp2 : parse_argument_integer (args.getD 2 []) with
      | ok b => exact Inv_ltrim s _ a b h
      | error e => exact h
    | error e =>
      cases hp2 : parse_argument_integer (args.getD 2 []) with
      | ok b => exact h
      | error e2 => exact h
  · exact Inv_rpoplpush_handler s _ _ h
  · cases hp1 : parse_argument_integer (args.getD 1 []) with
    | ok i => exact Inv_lindex s _ i h
    | error e => exact h
  · cases hp1 : parse_argument_integer (args.getD 1 []) with
    | ok i => exact Inv_lset s _ i _ h
    | error e => exact h
  · exact Inv_blocking_pop s args h
  · exact Inv_blocking_pop s args h
  · exact h

theorem Inv_handle_nonterminal (s : Store) (name : String) (args : List Bytes)
    (h : Inv s) :
    Inv (eoStore s (Command.handle_nonterminal_command s name args)) := by
  rw [Command.handle_nonterminal_command]
  cases hf : COMMAND_SETTINGS.find? (fun st => st.name == to_uppercase name) with
  | none => exact h
  | some settings =>
    dsimp only
    split
    · have hrun := Inv_runHandler settings.name s args h
      cases hrh : Command.runHandler settings.name s args with
      | ok v s' =>
        rw [hrh] at hrun
        exact hrun
      | err m s' =>
        rw [hrh] at hrun
        exact hrun
      | panic => exact h
      | blocks => exact h
    · exact h

theorem Inv_execute (s : Store) (name : String) (args : List Bytes) (h : Inv s) :
    Inv (eoStore s (Command.execute s name args)) := by
  rw [Command.execute]
  split
  · exact h
  · exact h
  · exact Inv_handle_nonterminal s name args h

theorem storeAfter_eq_eoStore (s : Store) (name : String) (args : List Bytes) :
    storeAfter s name args = eoStore s (Command.execute s name args) := by
  rw [storeAfter]
  cases Command.execute s name args <;> rfl

/-- Every store reachable from the empty database satisfies the
invariant: ids are distinct and each key's positions form a contiguous
interval. -/
theorem reachable_inv {s : Store} (h : Reachable s) : Inv s := by
  induction h with
  | init =>
    refine ⟨⟨List.nodup_nil, ?_⟩, ?_⟩
    · intro r hr
      simp [Store.empty] at hr
    · intro k
      refine ⟨0, ?_⟩
      show List.Perm (positionsOf Store.empty k) (intRange 0 (positionsOf Store.empty k).length)
      rfl
  | step s name args hr ih =>
    rw [storeAfter_eq_eoStore]
    exact Inv_execute s name args ih

/-- C1: starting from a state where `k` is empty, `RPUSH k v1 … vn`
replies with the new count `n` and `LRANGE k 0 -1` then returns
`[v1, …, vn]` in that order, while `LPUSH k v1 … vn` replies `n` and
`LRANGE k 0 -1` then returns `[vn, …, v1]`; the pushed rows occupy the
positions `1, …, n` (right) resp. `-1, …, -n` (left), one beyond the
extremum re-evaluated after each insert. -/
theorem c1_push_then_lrange (s : Store) (k : Bytes) (vs : List Bytes)
    (h : count_list_items s k = 0) :
    Command.rpush s k vs
      = .ok (.Integer (vs.length : Int)) (push s k .Right vs) ∧
    Command.lrange (push s k .Right vs) k 0 (-1)
      = .ok (.Arr (vs.map .BufBulk)) (push s k .Right vs) ∧
    positionsOf (push s k .Right vs) k = intRange 1 vs.length ∧
    Command.lpush s k vs
      = .ok (.Integer (vs.length : Int)) (push s k .Left vs) ∧
    Command.lrange (push s k .Left vs) k 0 (-1)
      = .ok (.Arr (vs.reverse.map .BufBulk)) (push s k .Left vs) ∧
    positionsOf (push s k .Left vs) k
      = (intRange (-(vs.length : Int)) vs.length).reverse := by
  have hkr : keyRows s k = [] := count_eq_zero_iff.mp h
  have hcountR : count_list_items (push s k .Right vs) k = (vs.length : Int) := by
    rw [count_push, h, zero_add]
  have hcountL : count_list_items (push s k .Left vs) k = (vs.length : Int) := by
    rw [count_push, h, zero_add]
  refine ⟨?_, ?_, positionsOf_push_right_empty hkr vs, ?_, ?_,
    positionsOf_push_left_empty hkr vs⟩
  · rw [Command.rpush, hcountR]
  · have hlr : Command.lrange (push s k .Right vs) k 0 (-1)
        = .ok (.Arr ((selectValues (push s k .Right vs) k).map .BufBulk))
            (push s k .Right vs) := by
      simp [Command.lrange]
    rw [hlr, selectValues_push_right_empty hkr vs]
  · rw [Command.lpush, hcountL]
  · have hlr : Command.lrange (push s k .Left vs) k 0 (-1)
        = .ok (.Arr ((selectValues (push s k .Left vs) k).map .BufBulk))
            (push s k .Left vs) := by
      simp [Command.lrange]
    rw [hlr, selectValues_push_left_empty hkr vs]

/-- C1 witness: the claim instantiated on a concrete store (one row
under another key) and two pushed values. -/
theorem c1_push_then_lrange_witness :
    count_list_items { rows := [⟨1, [111], [99], 5⟩], nextId := 2 } [107] = 0 ∧
    (Command.rpush { rows := [⟨1, [111], [99], 5⟩], nextId := 2 } [107] [[97], [98]]
        = .ok (.Integer 2)
            (push { rows := [⟨1, [111], [99], 5⟩], nextId := 2 } [107] .Right [[97], [98]]) ∧
      Command.lrange
          (push { rows := [⟨1, [111], [99], 5⟩], nextId := 2 } [107] .Right [[97], [98]])
          [107] 0 (-1)
        = .ok (.Arr ([[97], [98]].map Value.BufBulk))
            (push { rows := [⟨1, [111], [99], 5⟩], nextId := 2 } [107] .Right [[97], [98]]) ∧
      positionsOf
          (push { rows := [⟨1, [111], [99], 5⟩], nextId := 2 } [107] .Right [[97], [98]])
          [107] = intRange 1 2 ∧
      Command.lpush { rows := [⟨1, [111], [99], 5⟩], nextId := 2 } [107] [[97], [98]]
        = .ok (.Integer 2)
            (push { rows := [⟨1, [111], [99], 5⟩], nextId := 2 } [107] .Left [[97], [98]]) ∧
      Command.lrange
          (push { rows := [⟨1, [111], [99], 5⟩], nextId := 2 } [107] .Left [[97], [98]])
          [107] 0 (-1)
        = .ok (.Arr ([[97], [98]].reverse.map Value.BufBulk))
            (push { rows := [⟨1, [111], [99], 5⟩], nextId := 2 } [107] .Left [[97], [98]]) ∧
      positionsOf
          (push { rows := [⟨1, [111], [99], 5⟩], nextId := 2 } [107] .Left [[97], [98]])
          [107] = (intRange (-(2 : Int)) 2).reverse) :=
  ⟨by decide,
    c1_push_then_lrange { rows := [⟨1, [111], [99], 5⟩], nextId := 2 } [107] [[97], [98]]
      (by decide)⟩

/-- C2: the index translation adds `first` to a non-negative index and
`last + 1` to a negative one; index `0` names the head (minimum)
position and `-1` the tail (maximum) position. -/
theorem c2_parse_index (f l i : Int) :
    parse_index (f, l) i = (if i < 0 then i + l + 1 else i + f) ∧
    parse_index (f, l) 0 = f ∧
    parse_index (f, l) (-1) = l := by
  refine ⟨rfl, ?_, ?_⟩
  · show (if (0 : Int) < 0 then (0 : Int) + l + 1 else 0 + f) = f
    norm_num
  · show (if (-1 : Int) < 0 then (-1 : Int) + l + 1 else -1 + f) = l
    norm_num

/-- C3 counterexample: on an empty key, `LRANGE k 1 5` takes the
otherwise-branch, whose boundary query yields NULL aggregates; the
command panics rather than returning the empty array the claim
prescribes for a key with no elements in `[lo, hi]`. -/
theorem c3_lrange_counterexample :
    Command.lrange Store.empty [116] 1 5 = HandlerResult.panic ∧
    ¬ Command.lrange Store.empty [116] 1 5 = HandlerResult.ok (Value.Arr []) Store.empty := by
  refine ⟨rfl, ?_⟩
  intro hcontra
  rw [show Command.lrange Store.empty [116] 1 5 = HandlerResult.panic from rfl] at hcontra
  exact HandlerResult.noConfusion hcontra

/-- C3 (amended): `LRANGE k a b` returns all elements in position order
for `(0,-1)` and the first `b+1` elements for `(0, b ≥ 0)` — these two
branches hold for every key `k₀`, empty keys included; and otherwise —
provided the boundary query returns values, i.e. `k` is non-empty (the
non-emptiness proviso guards only this branch) — the empty array when
`translate(a) > translate(b)` and else exactly the elements with
position in `[translate(a), translate(b)]` in position order.  (On an
empty key the otherwise-branch panics; see the counterexample.) -/
theorem c3_lrange_cases (s : Store) (k₀ k : Bytes) (f l b₁ a b : Int)
    (hb : find_position_boundaries s k = some (f, l)) (h1 : 0 ≤ b₁)
    (h2 : ¬ (a = 0 ∧ b = -1)) (h3 : ¬ (a = 0 ∧ 0 ≤ b)) :
    Command.lrange s k₀ 0 (-1) = .ok (.Arr ((selectValues s k₀).map .BufBulk)) s ∧
    Command.lrange s k₀ 0 b₁
      = .ok (.Arr (((selectValues s k₀).take (b₁ + 1).toNat).map .BufBulk)) s ∧
    Command.lrange s k a b
      = (if parse_index (f, l) b < parse_index (f, l) a
         then .ok (.Arr []) s
         else .ok (.Arr ((selectValuesBetween s k
                (parse_index (f, l) a) (parse_index (f, l) b)).map .BufBulk)) s) := by
  refine ⟨by simp [Command.lrange], ?_, ?_⟩
  · have hne : ¬ ((0 : Int) = 0 ∧ b₁ = -1) := by
      rintro ⟨-, rfl⟩
      omega
    rw [Command.lrange, if_neg hne, if_pos ⟨rfl, h1⟩]
    rfl
  · rw [Command.lrange, if_neg h2, if_neg h3, hb]
    rfl

/-- C3 witness: the amended claim instantiated with the empty key `[122]`
for the two unconditional branches and a two-element key for the
otherwise-branch. -/
theorem c3_lrange_cases_witness :
    find_position_boundaries
        { rows := [⟨1, [107], [97], -4⟩, ⟨2, [107], [98], -5⟩], nextId := 3 } [107]
      = some (-5, -4) ∧
    (0 : Int) ≤ 0 ∧
    ¬ ((3 : Int) = 0 ∧ (-2 : Int) = -1) ∧
    ¬ ((3 : Int) = 0 ∧ (0 : Int) ≤ -2) ∧
    (Command.lrange { rows := [⟨1, [107], [97], -4⟩, ⟨2, [107], [98], -5⟩], nextId := 3 }
        [122] 0 (-1)
      = .ok (.Arr ((selectValues
          { rows := [⟨1, [107], [97], -4⟩, ⟨2, [107], [98], -5⟩], nextId := 3 }
          [122]).map Value.BufBulk))
          { rows := [⟨1, [107], [97], -4⟩, ⟨2, [107], [98], -5⟩], nextId := 3 } ∧
    Command.lrange { rows := [⟨1, [107], [97], -4⟩, ⟨2, [107], [98], -5⟩], nextId := 3 }
        [122] 0 0
      = .ok (.Arr (((selectValues
          { rows := [⟨1, [107], [97], -4⟩, ⟨2, [107], [98], -5⟩], nextId := 3 }
          [122]).take ((0 : Int) + 1).toNat).map Value.BufBulk))
          { rows := [⟨1, [107], [97], -4⟩, ⟨2, [107], [98], -5⟩], nextId := 3 } ∧
    Command.lrange { rows := [⟨1, [107], [97], -4⟩, ⟨2, [107], [98], -5⟩], nextId := 3 }
        [107] 3 (-2)
      = (if parse_index (-5, -4) (-2) < parse_index (-5, -4) 3
         then .ok (.Arr [])
            { rows := [⟨1, [107], [97], -4⟩, ⟨2, [107], [98], -5⟩], nextId := 3 }
         else .ok (.Arr ((selectValuesBetween
            { rows := [⟨1, [107], [97], -4⟩, ⟨2, [107], [98], -5⟩], nextId := 3 }
            [107] (parse_index (-5, -4) 3) (parse_index (-5, -4) (-2))).map Value.BufBulk))
            { rows := [⟨1, [107], [97], -4⟩, ⟨2, [107], [98], -5⟩], nextId := 3 })) :=
  ⟨by decide, by decide, by decide, by decide,
    c3_lrange_cases { rows := [⟨1, [107], [97], -4⟩, ⟨2, [107], [98], -5⟩], nextId := 3 }
      [122] [107] (-5) (-4) 0 3 (-2) (by decide) (by decide) (by decide) (by decide)⟩

/-- C4: for a non-empty key `k` with boundaries `(f, l)`, `LSET k i v`
returns the out-of-range error and leaves the store untouched exactly
when `translate(i)` falls outside `[f, l]`; otherwise it returns OK and
rewrites only the value of `k`'s rows at position `translate(i)`,
preserving every position, every other row, every other key and the id
counter. -/
theorem c4_lset (s : Store) (k : Bytes) (i : Int) (v : Bytes) (f l : Int) (k' : Bytes)
    (hb : find_position_boundaries s k = some (f, l)) (hk' : ¬ k' = k) :
    (Command.lset s k i v
        = if parse_index (f, l) i < f ∨ l < parse_index (f, l) i
          then .err "index out of range" s
          else .ok (.Str "OK") (updateAt s k (parse_index (f, l) i) v)) ∧
    keyRows (updateAt s k (parse_index (f, l) i) v) k
      = (keyRows s k).map
          (fun r => if r.position = parse_index (f, l) i then { r with value := v } else r) ∧
    positionsOf (updateAt s k (parse_index (f, l) i) v) k = positionsOf s k ∧
    keyRows (updateAt s k (parse_index (f, l) i) v) k' = keyRows s k' ∧
    (updateAt s k (parse_index (f, l) i) v).nextId = s.nextId := by
  refine ⟨?_, keyRows_updateAt_same s k _ v, positionsOf_updateAt_same s k _ v,
    keyRows_updateAt_other hk' s _ v, rfl⟩
  rw [Command.lset, hb]

/-- C4 witness: LSET on a concrete two-element key, in-range index. -/
theorem c4_lset_witness :
    find_position_boundaries
        { rows := [⟨1, [107], [97], -4⟩, ⟨2, [107], [98], -5⟩], nextId := 3 } [107]
      = some (-5, -4) ∧
    ¬ ([111] : Bytes) = [107] ∧
    ((Command.lset { rows := [⟨1, [107], [97], -4⟩, ⟨2, [107], [98], -5⟩], nextId := 3 }
        [107] 0 [120]
      = if parse_index (-5, -4) 0 < -5 ∨ -4 < parse_index (-5, -4) 0
        then .err "index out of range"
          { rows := [⟨1, [107], [97], -4⟩, ⟨2, [107], [98], -5⟩], nextId := 3 }
        else .ok (.Str "OK")
          (updateAt { rows := [⟨1, [107], [97], -4⟩, ⟨2, [107], [98], -5⟩], nextId := 3 }
            [107] (parse_index (-5, -4) 0) [120])) ∧
    keyRows (updateAt { rows := [⟨1, [107], [97], -4⟩, ⟨2, [107], [98], -5⟩], nextId := 3 }
        [107] (parse_index (-5, -4) 0) [120]) [107]
      = (keyRows { rows := [⟨1, [107], [97], -4⟩, ⟨2, [107], [98], -5⟩], nextId := 3 }
          [107]).map
          (fun r => if r.position = parse_index (-5, -4) 0 then { r with value := [120] } else r) ∧
    positionsOf (updateAt { rows := [⟨1, [107], [97], -4⟩, ⟨2, [107], [98], -5⟩], nextId := 3 }
        [107] (parse_index (-5, -4) 0) [120]) [107]
      = positionsOf { rows := [⟨1, [107], [97], -4⟩, ⟨2, [107], [98], -5⟩], nextId := 3 } [107] ∧
    keyRows (updateAt { rows := [⟨1, [107], [97], -4⟩, ⟨2, [107], [98], -5⟩], nextId := 3 }
        [107] (parse_index (-5, -4) 0) [120]) [111]
      = keyRows { rows := [⟨1, [107], [97], -4⟩, ⟨2, [107], [98], -5⟩], nextId := 3 } [111] ∧
    (updateAt { rows := [⟨1, [107], [97], -4⟩, ⟨2, [107], [98], -5⟩], nextId := 3 }
        [107] (parse_index (-5, -4) 0) [120]).nextId
      = ({ rows := [⟨1, [107], [97], -4⟩, ⟨2, [107], [98], -5⟩], nextId := 3 } : Store).nextId) :=
  ⟨by decide, by decide,
    c4_lset { rows := [⟨1, [107], [97], -4⟩, ⟨2, [107], [98], -5⟩], nextId := 3 }
      [107] 0 [120] (-5) (-4) [111] (by decide) (by decide)⟩

/-- C5 (code-bug evaluation): on a key with zero elements the boundary
query's MIN/MAX aggregates are NULL and their extraction into `i64`
fails, so LINDEX and LSET panic instead of replying Null resp.
`ERR index out of range` as the spec prescribes. -/
theorem c5_empty_key_lindex_lset_panic :
    count_list_items Store.empty [116] = 0 ∧
    Command.lindex Store.empty [116] 0 = HandlerResult.panic ∧
    Command.lindex Store.empty [116] (-1) = HandlerResult.panic ∧
    Command.lset Store.empty [116] 0 [120] = HandlerResult.panic ∧
    Command.lset Store.empty [116] (-1) [120] = HandlerResult.panic :=
  ⟨rfl, rfl, rfl, rfl, rfl⟩

/-- C6: `LTRIM k₀ 0 -1` is a no-op returning OK for every store and every
key `k₀`, empty keys included; for a non-empty `k` and any other
`(a, b)`, LTRIM returns OK and deletes exactly the rows of `k` whose
position is strictly below `translate(a)` or strictly above
`translate(b)`, leaving other keys untouched. -/
theorem c6_ltrim (s : Store) (k₀ k k' : Bytes) (a b f l : Int)
    (hab : ¬ (a = 0 ∧ b = -1)) (hb : find_position_boundaries s k = some (f, l))
    (hk' : ¬ k' = k) :
    Command.ltrim s k₀ 0 (-1) = .ok (.Str "OK") s ∧
    Command.ltrim s k a b
      = .ok (.Str "OK") (deleteOutside s k (parse_index (f, l) a) (parse_index (f, l) b)) ∧
    (deleteOutside s k (parse_index (f, l) a) (parse_index (f, l) b)).rows
      = s.rows.filter
          (fun r => decide (¬ (r.key = k ∧
            (r.position < parse_index (f, l) a ∨ parse_index (f, l) b < r.position)))) ∧
    (deleteOutside s k (parse_index (f, l) a) (parse_index (f, l) b)).nextId = s.nextId ∧
    keyRows (deleteOutside s k (parse_index (f, l) a) (parse_index (f, l) b)) k'
      = keyRows s k' := by
  refine ⟨by simp [Command.ltrim], ?_, rfl, rfl, keyRows_deleteOutside_other hk' s _ _⟩
  have hcond : ¬ a = 0 ∨ ¬ b = -1 := by tauto
  rw [Command.ltrim, if_pos hcond, hb]
  rfl

/-- C6 witness: the no-op branch on the empty key `[122]` and the
trimming branch on a concrete two-element key with `(a,b) = (1,-1)`. -/
theorem c6_ltrim_witness :
    ¬ ((1 : Int) = 0 ∧ (-1 : Int) = -1) ∧
    find_position_boundaries
        { rows := [⟨1, [107], [97], -4⟩, ⟨2, [107], [98], -5⟩], nextId := 3 } [107]
      = some (-5, -4) ∧
    ¬ ([111] : Bytes) = [107] ∧
    (Command.ltrim { rows := [⟨1, [107], [97], -4⟩, ⟨2, [107], [98], -5⟩], nextId := 3 }
        [122] 0 (-1)
      = .ok (.Str "OK") { rows := [⟨1, [107], [97], -4⟩, ⟨2, [107], [98], -5⟩], nextId := 3 } ∧
    Command.ltrim { rows := [⟨1, [107], [97], -4⟩, ⟨2, [107], [98], -5⟩], nextId := 3 }
        [107] 1 (-1)
      = .ok (.Str "OK")
          (deleteOutside { rows := [⟨1, [107], [97], -4⟩, ⟨2, [107], [98], -5⟩], nextId := 3 }
            [107] (parse_index (-5, -4) 1) (parse_index (-5, -4) (-1))) ∧
    (deleteOutside { rows := [⟨1, [107], [97], -4⟩, ⟨2, [107], [98], -5⟩], nextId := 3 }
        [107] (parse_index (-5, -4) 1) (parse_index (-5, -4) (-1))).rows
      = ({ rows := [⟨1, [107], [97], -4⟩, ⟨2, [107], [98], -5⟩], nextId := 3 } : Store).rows.filter
          (fun r => decide (¬ (r.key = [107] ∧
            (r.position < parse_index (-5, -4) 1 ∨ parse_index (-5, -4) (-1) < r.position)))) ∧
    (deleteOutside { rows := [⟨1, [107], [97], -4⟩, ⟨2, [107], [98], -5⟩], nextId := 3 }
        [107] (parse_index (-5, -4) 1) (parse_index (-5, -4) (-1))).nextId
      = ({ rows := [⟨1, [107], [97], -4⟩, ⟨2, [107], [98], -5⟩], nextId := 3 } : Store).nextId ∧
    keyRows (deleteOutside { rows := [⟨1, [107], [97], -4⟩, ⟨2, [107], [98], -5⟩], nextId := 3 }
        [107] (parse_index (-5, -4) 1) (parse_index (-5, -4) (-1))) [111]
      = keyRows { rows := [⟨1, [107], [97], -4⟩, ⟨2, [107], [98], -5⟩], nextId := 3 } [111]) :=
  ⟨by decide, by decide, by decide,
    c6_ltrim { rows := [⟨1, [107], [97], -4⟩, ⟨2, [107], [98], -5⟩], nextId := 3 }
      [122] [107] [111] 1 (-1) (-5) (-4) (by decide) (by decide) (by decide)⟩

/-- C7: on a well-formed store, if the source key's sorted values are
`l ++ [v]`, `RPOPLPUSH src dst` removes the source row carrying the
largest position (leaving `l` under the source key), pushes its value
as the new head of `dst` relative to the store after the removal, and
returns it.  When `src ≠ dst` the removal leaves `dst` untouched, so
the destination becomes `v` prepended to its old list; when
`src = dst` the command rotates the list to `v :: l`.  On an empty
source it returns Null leaving the whole store untouched.  Keys other
than `src` and `dst` are unaffected. -/
theorem c7_rpoplpush (s : Store) (src dst k' src₂ dst₂ : Bytes) (l : List Bytes) (v : Bytes)
    (hids : (s.rows.map (·.id)).Nodup)
    (hnds : (positionsOf s src).Nodup) (hndd : (positionsOf s dst).Nodup)
    (hks : ¬ k' = src) (hkd : ¬ k' = dst)
    (hsel : selectValues s src = l ++ [v])
    (h0 : count_list_items s src₂ = 0) :
    Command.rpoplpush s src₂ dst₂ = .ok .Null s ∧
    ∃ r : Row, maxPosition s src = some r.position ∧ r.value = v ∧
      Command.rpoplpush s src dst
        = .ok (.BufBulk v) (push (deleteById s r.id) dst .Left [v]) ∧
      selectValues (deleteById s r.id) src = l ∧
      selectValues (push (deleteById s r.id) dst .Left [v]) dst
        = v :: selectValues (deleteById s r.id) dst ∧
      (¬ src = dst →
        selectValues (push (deleteById s r.id) dst .Left [v]) src = l ∧
        selectValues (deleteById s r.id) dst = selectValues s dst) ∧
      (src = dst →
        selectValues (push (deleteById s r.id) dst .Left [v]) dst = v :: l) ∧
      keyRows (push (deleteById s r.id) dst .Left [v]) k' = keyRows s k' := by
  constructor
  · have hkr : keyRows s src₂ = [] := count_eq_zero_iff.mp h0
    have hnone : popRow s src₂ .Right = none := by
      rw [popRow, selectExtremal, hkr]
      rfl
    rw [Command.rpoplpush, hnone]
  · obtain ⟨r, hrrows, hrkey, hrv, hmax, hpop, hseldel⟩ := popRow_right_spec hids hnds hsel
    have hkd_k' : keyRows (deleteById s r.id) k' = keyRows s k' :=
      keyRows_deleteById_other hids hrrows (by rw [hrkey]; exact hks)
    have hpush1 : push (deleteById s r.id) dst .Left [v]
        = insertRow (deleteById s r.id) dst v
            (nextPosition (deleteById s r.id) dst .Left) := rfl
    have hkrF_dst : keyRows (push (deleteById s r.id) dst .Left [v]) dst
        = keyRows (deleteById s r.id) dst
            ++ [{ id := (deleteById s r.id).nextId, key := dst, value := v,
                  position := nextPosition (deleteById s r.id) dst .Left }] := by
      rw [hpush1]
      exact keyRows_insert_same _ dst v _
    have hlt : ∀ x ∈ keyRows (deleteById s r.id) dst,
        nextPosition (deleteById s r.id) dst .Left < x.position := by
      intro x hx
      rw [nextPosition]
      cases hminv : minPosition (deleteById s r.id) dst with
      | none =>
        exfalso
        rw [minPosition, listMin_eq_none, positionsOf, List.map_eq_nil_iff] at hminv
        rw [hminv] at hx
        simp at hx
      | some m =>
        rw [minPosition] at hminv
        have hchar := (listMin_eq_some_iff.mp hminv).2
        have hxm : m ≤ x.position :=
          hchar x.position (List.mem_map_of_mem _ hx)
        simp only [Option.getD_some]
        omega
    have hndd0 : ((keyRows s dst).map (·.position)).Nodup := hndd
    have hndd1 : ((keyRows (deleteById s r.id) dst).map (·.position)).Nodup := by
      rw [keyRows_deleteById]
      exact List.Nodup.sublist ((List.filter_sublist _).map _) hndd0
    have hsortF : sortRows (keyRows (deleteById s r.id) dst
          ++ [{ id := (deleteById s r.id).nextId, key := dst, value := v,
                position := nextPosition (deleteById s r.id) dst .Left }])
        = { id := (deleteById s r.id).nextId, key := dst, value := v,
            position := nextPosition (deleteById s r.id) dst .Left }
            :: sortRows (keyRows (deleteById s r.id) dst) :=
      sortRows_concat_min hlt hndd1
    have hselF_dst : selectValues (push (deleteById s r.id) dst .Left [v]) dst
        = v :: selectValues (deleteById s r.id) dst := by
      rw [selectValues, hkrF_dst, hsortF, List.map_cons, selectValues]
    have hcase_ne : ¬ src = dst →
        selectValues (push (deleteById s r.id) dst .Left [v]) src = l ∧
        selectValues (deleteById s r.id) dst = selectValues s dst := by
      intro hsd
      have hkd_dst : keyRows (deleteById s r.id) dst = keyRows s dst :=
        keyRows_deleteById_other hids hrrows (by rw [hrkey]; exact fun hc => hsd hc.symm)
      constructor
      · have hkrF_src : keyRows (push (deleteById s r.id) dst .Left [v]) src
            = keyRows (deleteById s r.id) src := by
          rw [hpush1]
          exact keyRows_insert_other hsd _ v _
        rw [selectValues, hkrF_src, ← selectValues, hseldel]
      · rw [selectValues, hkd_dst, selectValues]
    have hcase_eq : src = dst →
        selectValues (push (deleteById s r.id) dst .Left [v]) dst = v :: l := by
      intro he
      rw [hselF_dst, ← he, hseldel]
    have hkrF_k' : keyRows (push (deleteById s r.id) dst .Left [v]) k'
        = keyRows s k' := by
      rw [hpush1, keyRows_insert_other hkd, hkd_k']
    refine ⟨r, hmax, hrv, ?_, hseldel, hselF_dst, hcase_ne, hcase_eq, hkrF_k'⟩
    rw [Command.rpoplpush, hpop]

/-- C7 witness: a concrete two-element source, empty destination, and
an absent second source key. -/
theorem c7_rpoplpush_witness :
    (({ rows := [⟨1, [115], [100], -5⟩, ⟨2, [115], [97], -4⟩], nextId := 3 } : Store).rows.map
        (·.id)).Nodup ∧
    (positionsOf { rows := [⟨1, [115], [100], -5⟩, ⟨2, [115], [97], -4⟩], nextId := 3 }
        [115]).Nodup ∧
    (positionsOf { rows := [⟨1, [115], [100], -5⟩, ⟨2, [115], [97], -4⟩], nextId := 3 }
        [111]).Nodup ∧
    ¬ ([122] : Bytes) = [115] ∧ ¬ ([122] : Bytes) = [111] ∧
    selectValues { rows := [⟨1, [115], [100], -5⟩, ⟨2, [115], [97], -4⟩], nextId := 3 } [115]
      = [[100]] ++ [[97]] ∧
    count_list_items { rows := [⟨1, [115], [100], -5⟩, ⟨2, [115], [97], -4⟩], nextId := 3 }
      [121] = 0 ∧
    (Command.rpoplpush { rows := [⟨1, [115], [100], -5⟩, ⟨2, [115], [97], -4⟩], nextId := 3 }
        [121] [111]
      = .ok .Null { rows := [⟨1, [115], [100], -5⟩, ⟨2, [115], [97], -4⟩], nextId := 3 } ∧
    ∃ r : Row,
      maxPosition { rows := [⟨1, [115], [100], -5⟩, ⟨2, [115], [97], -4⟩], nextId := 3 } [115]
        = some r.position ∧
      r.value = [97] ∧
      Command.rpoplpush { rows := [⟨1, [115], [100], -5⟩, ⟨2, [115], [97], -4⟩], nextId := 3 }
          [115] [111]
        = .ok (.BufBulk [97])
            (push (deleteById
                { rows := [⟨1, [115], [100], -5⟩, ⟨2, [115], [97], -4⟩], nextId := 3 } r.id)
              [111] .Left [[97]]) ∧
      selectValues (deleteById
            { rows := [⟨1, [115], [100], -5⟩, ⟨2, [115], [97], -4⟩], nextId := 3 } r.id)
          [115] = [[100]] ∧
      selectValues (push (deleteById
            { rows := [⟨1, [115], [100], -5⟩, ⟨2, [115], [97], -4⟩], nextId := 3 } r.id)
          [111] .Left [[97]]) [111]
        = [97] :: selectValues (deleteById
            { rows := [⟨1, [115], [100], -5⟩, ⟨2, [115], [97], -4⟩], nextId := 3 } r.id) [111] ∧
      (¬ ([115] : Bytes) = [111] →
        selectValues (push (deleteById
              { rows := [⟨1, [115], [100], -5⟩, ⟨2, [115], [97], -4⟩], nextId := 3 } r.id)
            [111] .Left [[97]]) [115] = [[100]] ∧
        selectValues (deleteById
              { rows := [⟨1, [115], [100], -5⟩, ⟨2, [115], [97], -4⟩], nextId := 3 } r.id) [111]
          = selectValues
              { rows := [⟨1, [115], [100], -5⟩, ⟨2, [115], [97], -4⟩], nextId := 3 } [111]) ∧
      (([115] : Bytes) = [111] →
        selectValues (push (deleteById
              { rows := [⟨1, [115], [100], -5⟩, ⟨2, [115], [97], -4⟩], nextId := 3 } r.id)
            [111] .Left [[97]]) [111] = [97] :: [[100]]) ∧
      keyRows (push (deleteById
            { rows := [⟨1, [115], [100], -5⟩, ⟨2, [115], [97], -4⟩], nextId := 3 } r.id)
          [111] .Left [[97]]) [122]
        = keyRows { rows := [⟨1, [115], [100], -5⟩, ⟨2, [115], [97], -4⟩], nextId := 3 } [122]) :=
  ⟨by decide, by decide, by decide, by decide, by decide, by decide, by decide,
    c7_rpoplpush { rows := [⟨1, [115], [100], -5⟩, ⟨2, [115], [97], -4⟩], nextId := 3 }
      [115] [111] [122] [121] [111] [[100]] [97]
      (by decide) (by decide) (by decide) (by decide) (by decide)
      (by decide) (by decide)⟩

/-- C8 counterexample: QUIT is handled before any arity check, so
`QUIT` with one (spurious) argument replies OK and hangs up instead of
returning the wrong-number-of-arguments error its declared arity 0
would demand. -/
theorem c8_counterexample :
    Command.execute Store.empty "QUIT" [[120]]
      = ExecOutcome.result (Value.Str "OK") Action.HangUp Store.empty ∧
    ¬ Command.execute Store.empty "QUIT" [[120]]
      = ExecOutcome.result (Value.Error "ERR wrong number of arguments") Action.Continue
          Store.empty := by
  constructor
  · rfl
  · intro h
    rw [show Command.execute Store.empty "QUIT" [[120]]
        = ExecOutcome.result (Value.Str "OK") Action.HangUp Store.empty from rfl] at h
    injection h with h1 h2 h3
    exact Value.noConfusion h1

/-- C8 (amended): command names are matched after Rust's Unicode
`to_uppercase` folding (so e.g. `quıt` with dotless i U+0131 also counts
as QUIT, and `lſet` with long s U+017F as LSET); QUIT and MONITOR reply
OK with their terminal action for any argument count (they are matched
before arity checking); a name whose folding is outside
`COMMAND_SETTINGS` (and is not QUIT/MONITOR) replies `ERR unsupported`;
a listed command with a mismatched argument count replies
`ERR wrong number of arguments`; in each case the session continues
(for the non-terminal ones) and the store is unchanged.  The declared
arity means exactly `N` arguments for `N ≥ 0` and at least `-N`
arguments for negative `N`. -/
theorem c8_dispatch (s : Store) (nameQ nameM nameU nameA : String)
    (argsQ argsM argsU argsA : List Bytes) (settings : CommandSettings) (n : Nat)
    (hq : to_uppercase nameQ = "QUIT")
    (hm : to_uppercase nameM = "MONITOR")
    (huq : ¬ to_uppercase nameU = "QUIT") (hum : ¬ to_uppercase nameU = "MONITOR")
    (hufind : COMMAND_SETTINGS.find? (fun st => st.name == to_uppercase nameU) = none)
    (haq : ¬ to_uppercase nameA = "QUIT") (ham : ¬ to_uppercase nameA = "MONITOR")
    (hafind : COMMAND_SETTINGS.find? (fun st => st.name == to_uppercase nameA)
      = some settings)
    (hbad : valid_argument_count settings argsA.length = false) :
    Command.execute s nameQ argsQ = .result (.Str "OK") .HangUp s ∧
    Command.execute s nameM argsM = .result (.Str "OK") .StartMonitor s ∧
    Command.execute s nameU argsU = .result (.Error "ERR unsupported") .Continue s ∧
    Command.execute s nameA argsA
      = .result (.Error "ERR wrong number of arguments") .Continue s ∧
    (valid_argument_count settings n = true
      ↔ ((settings.argument_count < 0 ∧ -settings.argument_count ≤ (n : Int)) ∨
         (0 ≤ settings.argument_count ∧ (n : Int) = settings.argument_count))) := by
  have hstep : ∀ (name : String) (args : List Bytes),
      ¬ to_uppercase name = "QUIT" → ¬ to_uppercase name = "MONITOR" →
      Command.execute s name args = Command.handle_nonterminal_command s name args := by
    intro name args h1 h2
    unfold Command.execute
    split
    · next heq => exact absurd heq h1
    · next heq => exact absurd heq h2
    · rfl
  refine ⟨?_, ?_, ?_, ?_, ?_⟩
  · unfold Command.execute
    rw [hq]
    rfl
  · unfold Command.execute
    rw [hm]
    rfl
  · rw [hstep nameU argsU huq hum]
    unfold Command.handle_nonterminal_command
    rw [hufind]
  · rw [hstep nameA argsA haq ham]
    unfold Command.handle_nonterminal_command
    rw [hafind]
    simp only [hbad]
    rfl
  · simp [valid_argument_count, Bool.or_eq_true, Bool.and_eq_true, decide_eq_true_eq]

/-- C8 witness: `quıt` (dotless i U+0131, Unicode-folding to QUIT) with
an argument, `MONITOR` with an argument, an unknown name, and `lſet`
(long s U+017F, folding to LSET) with too few arguments. -/
theorem c8_dispatch_witness :
    to_uppercase "quıt" = "QUIT" ∧
    to_uppercase "MONITOR" = "MONITOR" ∧
    ¬ to_uppercase "GET" = "QUIT" ∧ ¬ to_uppercase "GET" = "MONITOR" ∧
    COMMAND_SETTINGS.find? (fun st => st.name == to_uppercase "GET") = none ∧
    ¬ to_uppercase "lſet" = "QUIT" ∧ ¬ to_uppercase "lſet" = "MONITOR" ∧
    COMMAND_SETTINGS.find? (fun st => st.name == to_uppercase "lſet")
      = some { name := "LSET", argument_count := 3 } ∧
    valid_argument_count { name := "LSET", argument_count := 3 } ([] : List Bytes).length
      = false ∧
    (Command.execute Store.empty "quıt" [[120]]
        = .result (.Str "OK") .HangUp Store.empty ∧
    Command.execute Store.empty "MONITOR" [[97]]
        = .result (.Str "OK") .StartMonitor Store.empty ∧
    Command.execute Store.empty "GET" [[107]]
        = .result (.Error "ERR unsupported") .Continue Store.empty ∧
    Command.execute Store.empty "lſet" []
        = .result (.Error "ERR wrong number of arguments") .Continue Store.empty ∧
    (valid_argument_count { name := "LSET", argument_count := 3 } 2 = true
      ↔ (((3 : Int) < 0 ∧ -(3 : Int) ≤ (2 : Int)) ∨
         ((0 : Int) ≤ 3 ∧ (2 : Int) = 3)))) :=
  ⟨by decide, by decide, by decide, by decide, by decide, by decide, by decide, by decide,
    by decide,
    c8_dispatch Store.empty "quıt" "MONITOR" "GET" "lſet" [[120]] [[97]] [[107]] []
      { name := "LSET", argument_count := 3 } 2
      (by decide) (by decide) (by decide) (by decide) (by decide) (by decide) (by decide)
      (by decide) (by decide)⟩

/-- C9: a listener snapshots `stop` at `listen()` time, so (tracking its
position `p ≥ ` that snapshot) every delivered message sits at a trace
index `≥` the snapshot — never a message sent before `listen()` — and
the position only advances; when the listener has fallen behind
(`p < start`), `recv` fast-forwards to `start` and returns the oldest
retained message (the ring's head), silently skipping the dropped
ones. -/
theorem c9_monitor (max_queue_size : Nat) (pre post : List String) (p : Nat)
    (hmax : 1 ≤ max_queue_size) (hp : pre.length ≤ p) :
    MonitorState.listen (monitorOf max_queue_size pre) = pre.length ∧
    (∀ msg p', MonitorState.recv (monitorOf max_queue_size (pre ++ post)) p
        = .delivered msg p' →
      ∃ i, pre.length ≤ i ∧ p ≤ i ∧ p' = i + 1 ∧ (pre ++ post).get? i = some msg) ∧
    (p < (monitorOf max_queue_size (pre ++ post)).start →
      ∃ msg, (pre ++ post).get? ((monitorOf max_queue_size (pre ++ post)).start) = some msg ∧
        (monitorOf max_queue_size (pre ++ post)).queue.head? = some msg ∧
        MonitorState.recv (monitorOf max_queue_size (pre ++ post)) p
          = .delivered msg ((monitorOf max_queue_size (pre ++ post)).start + 1)) := by
  obtain ⟨g1, g2, g3, g4, g5, g6⟩ := monitorOf_good hmax (pre ++ post)
  refine ⟨?_, ?_, ?_⟩
  · rw [MonitorState.listen, (monitorOf_good hmax pre).1]
  · intro msg p' hrecv
    unfold MonitorState.recv at hrecv
    by_cases hps : p = (monitorOf max_queue_size (pre ++ post)).stop
    · rw [if_pos hps] at hrecv
      exact absurd hrecv (fun h => RecvResult.noConfusion h)
    · rw [if_neg hps] at hrecv
      dsimp only at hrecv
      set i := if p < (monitorOf max_queue_size (pre ++ post)).start
        then (monitorOf max_queue_size (pre ++ post)).start else p with hi
      cases hget : (monitorOf max_queue_size (pre ++ post)).queue.get?
          (i - (monitorOf max_queue_size (pre ++ post)).start) with
      | none =>
        rw [hget] at hrecv
        exact absurd hrecv (fun h => RecvResult.noConfusion h)
      | some payload =>
        rw [hget] at hrecv
        injection hrecv with hmsg hp'
        have histart : (monitorOf max_queue_size (pre ++ post)).start ≤ i := by
          rw [hi]
          split <;> omega
        have hip : p ≤ i := by
          rw [hi]
          split <;> omega
        have hmem : (pre ++ post).get? i = some payload := by
          rw [g2, List.get?_drop] at hget
          rwa [show (monitorOf max_queue_size (pre ++ post)).start
              + (i - (monitorOf max_queue_size (pre ++ post)).start) = i by omega] at hget
        exact ⟨i, le_trans hp hip, hip, hp'.symm, hmsg ▸ hmem⟩
  · intro hplt
    have hlen : max_queue_size ≤ (pre ++ post).length := by
      by_contra hcon
      push_neg at hcon
      have := g5 (le_of_lt hcon)
      omega
    have hqlen : (monitorOf max_queue_size (pre ++ post)).queue.length = max_queue_size :=
      g6 hlen
    have hq1 : 1 ≤ (monitorOf max_queue_size (pre ++ post)).queue.length := by omega
    obtain ⟨q0, rest, hq⟩ :
        ∃ q0 rest, (monitorOf max_queue_size (pre ++ post)).queue = q0 :: rest := by
      cases hqv : (monitorOf max_queue_size (pre ++ post)).queue with
      | nil => rw [hqv] at hq1; simp at hq1
      | cons a b => exact ⟨a, b, rfl⟩
    have hhead : (monitorOf max_queue_size (pre ++ post)).queue.head? = some q0 := by
      rw [hq]
      rfl
    have hget0 : (monitorOf max_queue_size (pre ++ post)).queue.get? 0 = some q0 := by
      rw [hq]
      rfl
    have hmsgstart : (pre ++ post).get? (monitorOf max_queue_size (pre ++ post)).start
        = some q0 := by
      rw [g2, List.get?_drop] at hget0
      simpa using hget0
    have hpstop : ¬ p = (monitorOf max_queue_size (pre ++ post)).stop := by omega
    refine ⟨q0, hmsgstart, hhead, ?_⟩
    unfold MonitorState.recv
    rw [if_neg hpstop, if_pos hplt]
    dsimp only
    rw [Nat.sub_self, hget0]

/-- C9 witness: bus capacity 2, one message before `listen`, four after;
the listener (position 1) has fallen behind (`start = 3`) and its next
`recv` skips to the oldest retained message. -/
theorem c9_monitor_witness :
    1 ≤ 2 ∧ (["x"] : List String).length ≤ 1 ∧
    (MonitorState.listen (monitorOf 2 ["x"]) = (["x"] : List String).length ∧
    (∀ msg p', MonitorState.recv (monitorOf 2 (["x"] ++ ["A", "B", "C", "D"])) 1
        = .delivered msg p' →
      ∃ i, (["x"] : List String).length ≤ i ∧ 1 ≤ i ∧ p' = i + 1 ∧
        (["x"] ++ ["A", "B", "C", "D"]).get? i = some msg) ∧
    (1 < (monitorOf 2 (["x"] ++ ["A", "B", "C", "D"])).start →
      ∃ msg, (["x"] ++ ["A", "B", "C", "D"]).get?
          ((monitorOf 2 (["x"] ++ ["A", "B", "C", "D"])).start) = some msg ∧
        (monitorOf 2 (["x"] ++ ["A", "B", "C", "D"])).queue.head? = some msg ∧
        MonitorState.recv (monitorOf 2 (["x"] ++ ["A", "B", "C", "D"])) 1
          = .delivered msg ((monitorOf 2 (["x"] ++ ["A", "B", "C", "D"])).start + 1))) :=
  ⟨by decide, by decide, c9_monitor 2 ["x"] ["A", "B", "C", "D"] 1 (by decide) (by decide)⟩

/-- C10: in every store reachable from the empty database by any
sequence of requests, a non-empty key's positions form a contiguous
integer interval: the row count equals `max - min + 1` and all
positions are distinct.  (The preservation argument covers push —
one fresh extremal position per value —, pop — removal at an end —,
LTRIM's delete-outside — a sub-interval —, and LSET — positions
unchanged.) -/
theorem c10_contiguous (s : Store) (hs : Reachable s) (k : Bytes)
    (hk : ¬ count_list_items s k = 0) :
    ∃ f l, find_position_boundaries s k = some (f, l) ∧
      count_list_items s k = l - f + 1 ∧
      (positionsOf s k).Nodup := by
  obtain ⟨-, hcontig⟩ := reachable_inv hs
  obtain ⟨lo, hperm⟩ := hcontig k
  have hlenpos : (positionsOf s k).length = (keyRows s k).length := by
    rw [positionsOf, List.length_map]
  have hn1 : 1 ≤ (positionsOf s k).length := by
    rw [count_list_items] at hk
    omega
  have hmm := contig_minmax hperm hn1
  refine ⟨lo, lo + (positionsOf s k).length - 1, ?_, ?_, ?_⟩
  · rw [find_position_boundaries, hmm.1, hmm.2]
  · rw [count_list_items]
    omega
  · exact (hperm.nodup_iff).mpr (nodup_intRange _ _)

/-- C10 witness: the store reached by `RPUSH k a b` from the empty
database. -/
theorem c10_contiguous_witness :
    ¬ count_list_items (storeAfter Store.empty "RPUSH" [[107], [97], [98]]) [107] = 0 ∧
    ∃ f l,
      find_position_boundaries (storeAfter Store.empty "RPUSH" [[107], [97], [98]]) [107]
        = some (f, l) ∧
      count_list_items (storeAfter Store.empty "RPUSH" [[107], [97], [98]]) [107]
        = l - f + 1 ∧
      (positionsOf (storeAfter Store.empty "RPUSH" [[107], [97], [98]]) [107]).Nodup :=
  ⟨by decide,
    c10_contiguous (storeAfter Store.empty "RPUSH" [[107], [97], [98]])
      (Reachable.step Store.empty "RPUSH" [[107], [97], [98]] Reachable.init) [107]
      (by decide)⟩

end Blueis
